import Mathlib

/-
Verification of the agentic-patterns demo repository.

This file shallowly embeds the pure control/data logic of the repository
(`week2/agenticpatterns.py`, `Week1/router_chain.py`, `parallel_consensus.py`,
`week4/autonomousclaims.py`, `week4/Production-Ready.py`,
`smart_investor_local.py`) into Lean and proves the spec claims about it.
LLM calls are opaque: their outputs are universally quantified inputs to the
embedded control logic.  Python strings are modelled as `List Char`
(ASCII-faithful; the regexes and labels in the sources are pure ASCII).
-/

namespace AgenticPatterns

/-! ## Pattern 5: Evaluator-Optimizer (`pattern_evaluator_optimizer`)

The Python loop:
```
context = request; status = "REJECTED"; attempt = 0
while status == "REJECTED" and attempt < 3:
    attempt += 1
    draft = call_llm(...)                      -- modelled by `drafts attempt`
    eval_response = call_llm(...)              -- parsing modelled by `EvalResult`
    try:
        eval_json = json.loads(eval_response)
        status = "APPROVED" if eval_json.get("status") == "PASS" else "REJECTED"
        feedback = eval_json.get("feedback")
    except:
        status = "APPROVED"                    -- fallback exit
        feedback = "JSON Error"
```
`EvalResult.parsed st fb` models a successful `json.loads` whose `status`
field compares to the string `st` (a missing or non-string `status` field
compares unequal to "PASS" and is covered by any `st ≠ "PASS"`);
`EvalResult.malformed` models any exception raised while decoding the verdict.
-/

inductive EvalResult where
  | parsed (status : String) (feedback : String)
  | malformed
deriving DecidableEq, Repr

/-- The body of the `try/except` that turns one evaluator response into the
new `status` and `feedback`. -/
def evalStep : EvalResult → String × String
  | .parsed st fb => (if st = "PASS" then "APPROVED" else "REJECTED", fb)
  | .malformed => ("APPROVED", "JSON Error")

/-- Observable state of the loop at exit: the value of `attempt` (= number of
draft generations performed), the final `status`, and the last draft
generated (the code exposes these via `print_step`). -/
structure LoopOutcome where
  attempts : Nat
  status : String
  lastDraft : String
deriving DecidableEq, Repr

/-- The `while status == "REJECTED" and attempt < 3` loop.  `fuel` is
`3 - attempt`, so `fuel > 0 ↔ attempt < 3`; each iteration increments
`attempt`, generates `drafts attempt`, and runs `evalStep` on the
evaluator's response for that attempt. -/
def loopAux (evals : Nat → EvalResult) (drafts : Nat → String) :
    Nat → Nat → String → String → LoopOutcome
  | 0, a, st, d => ⟨a, st, d⟩
  | f + 1, a, st, d =>
    if st = "REJECTED" then
      loopAux evals drafts f (a + 1) (evalStep (evals (a + 1))).1 (drafts (a + 1))
    else ⟨a, st, d⟩

/-- `pattern_evaluator_optimizer`, abstracted over the generator and evaluator
responses.  The hard ceiling in the source is `attempt < 3`. -/
def pattern_evaluator_optimizer (evals : Nat → EvalResult) (drafts : Nat → String) :
    LoopOutcome :=
  loopAux evals drafts 3 0 "REJECTED" ""

/-- Terminal state in the spec's vocabulary: a loop that exits with
`status = "APPROVED"` terminated approved; exiting any other way is only
possible at the iteration ceiling, which the spec names `EXHAUSTED`. -/
def loopTerminal (o : LoopOutcome) : String :=
  if o.status = "APPROVED" then "APPROVED" else "EXHAUSTED"

theorem evalStep_status (r : EvalResult) :
    (evalStep r).1 = "APPROVED" ∨ (evalStep r).1 = "REJECTED" := by
  cases r with
  | parsed st fb =>
    by_cases h : st = "PASS" <;> simp [evalStep, h]
  | malformed => simp [evalStep]

/-- C1: with an evaluator failing twice then passing, the loop does exactly 3
draft generations and exits APPROVED; with an evaluator that always fails, it
exits after exactly the ceiling of 3 iterations in the EXHAUSTED terminal
state. -/
theorem C1_evaluator_optimizer_iteration_behavior
    (evals evals' : Nat → EvalResult) (drafts : Nat → String)
    (fb1 fb2 fb3 : String) (fb' : Nat → String) :
    (evals 1 = .parsed "FAIL" fb1 → evals 2 = .parsed "FAIL" fb2 →
      evals 3 = .parsed "PASS" fb3 →
      pattern_evaluator_optimizer evals drafts = ⟨3, "APPROVED", drafts 3⟩ ∧
      loopTerminal (pattern_evaluator_optimizer evals drafts) = "APPROVED") ∧
    ((∀ i, evals' i = .parsed "FAIL" (fb' i)) →
      pattern_evaluator_optimizer evals' drafts = ⟨3, "REJECTED", drafts 3⟩ ∧
      loopTerminal (pattern_evaluator_optimizer evals' drafts) = "EXHAUSTED") := by
  constructor
  · intro h1 h2 h3
    simp [pattern_evaluator_optimizer, loopAux, h1, h2, h3, evalStep, loopTerminal]
  · intro h
    simp [pattern_evaluator_optimizer, loopAux, h 1, h 2, h 3, evalStep, loopTerminal]

theorem C1_evaluator_optimizer_iteration_behavior_witness :
    pattern_evaluator_optimizer
        (fun i => .parsed (if i = 3 then "PASS" else "FAIL") "fb")
        (fun _ => "draft") = ⟨3, "APPROVED", "draft"⟩ ∧
    pattern_evaluator_optimizer (fun _ => .parsed "FAIL" "fb")
        (fun _ => "draft") = ⟨3, "REJECTED", "draft"⟩ ∧
    loopTerminal (pattern_evaluator_optimizer (fun _ => .parsed "FAIL" "fb")
        (fun _ => "draft")) = "EXHAUSTED" := by
  refine ⟨?_, ?_, ?_⟩
  · exact ((C1_evaluator_optimizer_iteration_behavior
      (fun i => .parsed (if i = 3 then "PASS" else "FAIL") "fb")
      (fun _ => .parsed "FAIL" "fb") (fun _ => "draft")
      "fb" "fb" "fb" (fun _ => "fb")).1 (by decide) (by decide) (by decide)).1
  · exact ((C1_evaluator_optimizer_iteration_behavior
      (fun i => .parsed (if i = 3 then "PASS" else "FAIL") "fb")
      (fun _ => .parsed "FAIL" "fb") (fun _ => "draft")
      "fb" "fb" "fb" (fun _ => "fb")).2 (fun _ => rfl)).1
  · exact ((C1_evaluator_optimizer_iteration_behavior
      (fun i => .parsed (if i = 3 then "PASS" else "FAIL") "fb")
      (fun _ => .parsed "FAIL" "fb") (fun _ => "draft")
      "fb" "fb" "fb" (fun _ => "fb")).2 (fun _ => rfl)).2

/-- C2: for every possible sequence of evaluator verdicts (PASS, FAIL or
malformed), the loop performs at most 3 iterations; if it exits without
approval it exits exactly at the ceiling, in the EXHAUSTED terminal state,
holding the last (3rd) draft. -/
theorem C2_evaluator_optimizer_hard_ceiling
    (evals : Nat → EvalResult) (drafts : Nat → String) :
    (pattern_evaluator_optimizer evals drafts).attempts ≤ 3 ∧
    ((pattern_evaluator_optimizer evals drafts).status ≠ "APPROVED" →
      (pattern_evaluator_optimizer evals drafts).attempts = 3 ∧
      loopTerminal (pattern_evaluator_optimizer evals drafts) = "EXHAUSTED" ∧
      (pattern_evaluator_optimizer evals drafts).lastDraft = drafts 3) := by
  rcases evalStep_status (evals 1) with h1 | h1 <;>
    rcases evalStep_status (evals 2) with h2 | h2 <;>
      rcases evalStep_status (evals 3) with h3 | h3 <;>
        simp [pattern_evaluator_optimizer, loopAux, h1, h2, h3, loopTerminal]

theorem C2_evaluator_optimizer_hard_ceiling_witness :
    (pattern_evaluator_optimizer (fun _ => .parsed "FAIL" "fb")
      (fun _ => "d")).status ≠ "APPROVED" ∧
    (pattern_evaluator_optimizer (fun _ => .parsed "FAIL" "fb")
      (fun _ => "d")).attempts = 3 ∧
    loopTerminal (pattern_evaluator_optimizer (fun _ => .parsed "FAIL" "fb")
      (fun _ => "d")) = "EXHAUSTED" ∧
    (pattern_evaluator_optimizer (fun _ => .parsed "FAIL" "fb")
      (fun _ => "d")).lastDraft = "d" := by
  have h := (C2_evaluator_optimizer_hard_ceiling (fun _ => .parsed "FAIL" "fb")
    (fun _ => "d")).2 (by decide)
  exact ⟨by decide, h.1, h.2.1, h.2.2⟩

/-- C6: whenever the evaluator's verdict fails to parse, the loop force-exits
with status APPROVED on that very iteration (it neither repeats nor aborts):
from any reachable loop state (`attempt = a`, `status = "REJECTED"`, positive
remaining fuel) a malformed verdict for attempt `a+1` ends the loop at
`attempt = a+1` with status APPROVED. -/
theorem C6_verdict_parse_failure_force_approve
    (evals : Nat → EvalResult) (drafts : Nat → String) (f a : Nat) (d : String)
    (h : evals (a + 1) = .malformed) :
    loopAux evals drafts (f + 1) a "REJECTED" d =
      ⟨a + 1, "APPROVED", drafts (a + 1)⟩ := by
  cases f <;> simp [loopAux, h, evalStep]

theorem C6_verdict_parse_failure_force_approve_witness :
    loopAux (fun _ => .malformed) (fun _ => "d") 3 0 "REJECTED" "" =
      ⟨1, "APPROVED", "d"⟩ :=
  C6_verdict_parse_failure_force_approve (fun _ => .malformed) (fun _ => "d")
    2 0 "" rfl

/-! ## Pattern 2: Routing (`pattern_routing`, `route_query`)

The Python dispatch:
```
category = call_llm(ROUTER_SYSTEM, query).strip().upper()
if "BILLING" in category: ...BILLING handler...
elif "TECHNICAL" in category: ...TECHNICAL handler...
else: ...GENERAL handler...
```
The classifier response is an arbitrary string; `.strip()` removes ASCII
whitespace from both ends, `.upper()` upper-cases, and `in` is substring
containment.  (Python's `str.upper` is Unicode-aware; the model uses
`Char.toUpper`, which is faithful on the ASCII labels involved.)
-/

/-- `p.startsWithL s`: `p` is a leading segment of `s`. -/
def startsWithL : List Char → List Char → Bool
  | [], _ => true
  | _ :: _, [] => false
  | p :: ps, c :: cs => p = c && startsWithL ps cs

/-- Python's `pat in s` for strings: contiguous-substring containment. -/
def containsSub (pat : List Char) : List Char → Bool
  | [] => pat.isEmpty
  | c :: rest => startsWithL pat (c :: rest) || containsSub pat rest

theorem startsWithL_iff (p s : List Char) :
    startsWithL p s = true ↔ ∃ v, s = p ++ v := by
  induction p generalizing s with
  | nil => simp [startsWithL]
  | cons c cs ih =>
    cases s with
    | nil => simp [startsWithL]
    | cons d ds =>
      simp only [startsWithL, Bool.and_eq_true, decide_eq_true_eq, ih,
        List.cons_append, List.cons.injEq]
      constructor
      · rintro ⟨rfl, v, rfl⟩; exact ⟨v, rfl, rfl⟩
      · rintro ⟨v, rfl, rfl⟩; exact ⟨rfl, v, rfl⟩

theorem containsSub_iff (pat s : List Char) :
    containsSub pat s = true ↔ ∃ u v, s = u ++ pat ++ v := by
  induction s with
  | nil =>
    simp only [containsSub, List.isEmpty_iff]
    constructor
    · rintro rfl; exact ⟨[], [], rfl⟩
    · rintro ⟨u, v, h⟩
      rcases List.append_eq_nil.mp h.symm with ⟨h1, h2⟩
      exact (List.append_eq_nil.mp h1).2
  | cons c rest ih =>
    simp only [containsSub, Bool.or_eq_true, startsWithL_iff, ih]
    constructor
    · rintro (⟨v, hv⟩ | ⟨u, v, huv⟩)
      · exact ⟨[], v, by simp [hv]⟩
      · exact ⟨c :: u, v, by simp [huv]⟩
    · rintro ⟨u, v, huv⟩
      cases u with
      | nil => exact Or.inl ⟨v, by simpa using huv⟩
      | cons x xs =>
        simp only [List.cons_append, List.cons.injEq] at huv
        exact Or.inr ⟨xs, v, huv.2⟩

/-- Python `str.strip()`'s whitespace set (ASCII part). -/
def pyIsWs (c : Char) : Bool :=
  c = ' ' || c = '\t' || c = '\n' || c = '\r' || c = '\x0b' || c = '\x0c'

/-- Python `s.strip()`. -/
def pyStrip (s : List Char) : List Char :=
  ((s.dropWhile pyIsWs).reverse.dropWhile pyIsWs).reverse

/-- `category = resp.strip().upper()` from the router code. -/
def upperStripped (resp : List Char) : List Char :=
  (pyStrip resp).map Char.toUpper

inductive Route where
  | billing
  | technical
  | general
deriving DecidableEq, Repr

/-- The dispatch of `pattern_routing` / `route_query`: which handler the
classifier response `resp` is routed to. -/
def pattern_routing_dispatch (resp : List Char) : Route :=
  let category := upperStripped resp
  if containsSub "BILLING".toList category then Route.billing
  else if containsSub "TECHNICAL".toList category then Route.technical
  else Route.general

/-- Spec-side predicate: `resp` contains `pat` as a case-insensitive
substring (some contiguous piece of `resp` upper-cases to `pat`). -/
def containsCI (pat resp : List Char) : Prop :=
  ∃ u w v, resp = u ++ w ++ v ∧ w.map Char.toUpper = pat

theorem dropWhile_through (p : Char → Bool) (u t : List Char)
    (ht : t = [] ∨ ∃ c t', t = c :: t' ∧ p c = false) :
    ∃ u₂, List.dropWhile p (u ++ t) = u₂ ++ t := by
  induction u with
  | nil =>
    rcases ht with rfl | ⟨c, t', rfl, hc⟩
    · exact ⟨[], by simp⟩
    · exact ⟨[], by simp [List.dropWhile, hc]⟩
  | cons a u' ih =>
    by_cases ha : p a
    · simpa [List.dropWhile, ha] using ih
    · exact ⟨a :: u', by simp [List.dropWhile, ha]⟩

theorem pyStrip_through (u w v : List Char) (hw : w ≠ [])
    (hws : ∀ c ∈ w, pyIsWs c = false) :
    ∃ u₂ v₂, pyStrip (u ++ w ++ v) = u₂ ++ w ++ v₂ := by
  obtain ⟨c, w', rfl⟩ := List.exists_cons_of_ne_nil hw
  obtain ⟨u₂, h1⟩ := dropWhile_through pyIsWs u ((c :: w') ++ v)
    (Or.inr ⟨c, w' ++ v, by simp, hws c (by simp)⟩)
  obtain ⟨d, r', hdr⟩ := List.exists_cons_of_ne_nil
    (show (c :: w').reverse ≠ [] by simp)
  have hd : d ∈ c :: w' := by
    have hmem : d ∈ (c :: w').reverse := by rw [hdr]; simp
    rw [List.mem_reverse] at hmem
    exact hmem
  obtain ⟨v₂, h2⟩ := dropWhile_through pyIsWs v.reverse ((c :: w').reverse ++ u₂.reverse)
    (Or.inr ⟨d, r' ++ u₂.reverse, by rw [hdr]; simp, hws d hd⟩)
  refine ⟨u₂, v₂.reverse, ?_⟩
  unfold pyStrip
  have harg : (List.dropWhile pyIsWs (u ++ c :: w' ++ v)).reverse
      = v.reverse ++ ((c :: w').reverse ++ u₂.reverse) := by
    rw [show u ++ c :: w' ++ v = u ++ (c :: w' ++ v) by simp, h1]
    simp
  rw [harg, h2]
  simp

theorem pyStrip_decomp (s : List Char) :
    ∃ pre suf, s = pre ++ pyStrip s ++ suf := by
  have h1 : List.takeWhile pyIsWs s ++ List.dropWhile pyIsWs s = s :=
    List.takeWhile_append_dropWhile pyIsWs s
  set s₁ := List.dropWhile pyIsWs s with hs₁
  have h2 : List.takeWhile pyIsWs s₁.reverse ++ List.dropWhile pyIsWs s₁.reverse
      = s₁.reverse :=
    List.takeWhile_append_dropWhile pyIsWs s₁.reverse
  have hps : pyStrip s = (List.dropWhile pyIsWs s₁.reverse).reverse := rfl
  have h3 : s₁ = pyStrip s ++ (List.takeWhile pyIsWs s₁.reverse).reverse := by
    rw [hps]
    conv_lhs => rw [← List.reverse_reverse s₁, ← h2]
    rw [List.reverse_append]
  refine ⟨List.takeWhile pyIsWs s, (List.takeWhile pyIsWs s₁.reverse).reverse, ?_⟩
  conv_lhs => rw [← h1, h3]
  simp [List.append_assoc]

theorem map_eq_append_decomp {f : Char → Char} {l x y : List Char}
    (h : l.map f = x ++ y) :
    ∃ a b, l = a ++ b ∧ a.map f = x ∧ b.map f = y := by
  induction x generalizing l with
  | nil => exact ⟨[], l, by simpa using h⟩
  | cons c x' ih =>
    cases l with
    | nil => simp at h
    | cons d l' =>
      simp only [List.map_cons, List.cons_append, List.cons.injEq] at h
      obtain ⟨a, b, rfl, ha, hb⟩ := ih h.2
      exact ⟨d :: a, b, rfl, by simp [h.1, ha], hb⟩

theorem pyIsWs_toUpper (c : Char) (h : pyIsWs c = true) :
    Char.toUpper c = c := by
  simp only [pyIsWs, Bool.or_eq_true, decide_eq_true_eq] at h
  rcases h with ((((rfl | rfl) | rfl) | rfl) | rfl) | rfl <;> decide

/-- Bridge between the spec-side case-insensitive-substring predicate and the
code's `"LABEL" in resp.strip().upper()` test, for a nonempty all-ASCII
pattern without whitespace (true of all three labels). -/
theorem containsCI_iff_containsSub (pat resp : List Char) (hne : pat ≠ [])
    (hpat : ∀ x ∈ pat, pyIsWs x = false) :
    containsCI pat resp ↔ containsSub pat (upperStripped resp) = true := by
  constructor
  · rintro ⟨u, w, v, rfl, hmap⟩
    have hwne : w ≠ [] := by rintro rfl; exact hne hmap.symm
    have hws : ∀ c ∈ w, pyIsWs c = false := by
      intro c hc
      by_contra hcon
      have h1 : Char.toUpper c = c :=
        pyIsWs_toUpper c (by revert hcon; cases pyIsWs c <;> simp)
      have h2 : Char.toUpper c ∈ pat := hmap ▸ List.mem_map_of_mem Char.toUpper hc
      rw [h1] at h2
      have := hpat c h2
      revert hcon; rw [this]; simp
    obtain ⟨u₂, v₂, hstrip⟩ := pyStrip_through u w v hwne hws
    rw [containsSub_iff]
    exact ⟨u₂.map Char.toUpper, v₂.map Char.toUpper,
      by rw [upperStripped, hstrip]; simp [hmap]⟩
  · intro h
    obtain ⟨x, y, hxy⟩ := (containsSub_iff _ _).mp h
    rw [upperStripped] at hxy
    rw [show x ++ pat ++ y = x ++ (pat ++ y) by simp] at hxy
    obtain ⟨a, bc, heq1, hax, hbc⟩ := map_eq_append_decomp hxy
    obtain ⟨b, c', heq2, hbx, hcx⟩ := map_eq_append_decomp hbc
    obtain ⟨pre, suf, hdecomp⟩ := pyStrip_decomp resp
    rw [heq1, heq2] at hdecomp
    exact ⟨pre ++ a, b, c' ++ suf, by rw [hdecomp]; simp, hbx⟩

/-- C3: a classifier response containing BILLING (case-insensitively, as a
substring) dispatches to the billing handler; otherwise one containing
TECHNICAL dispatches to the technical handler; otherwise the default GENERAL
handler is used — i.e. the first label in the fixed priority order
BILLING, TECHNICAL, GENERAL wins, with GENERAL as the fallback. -/
theorem C3_routing_dispatch (resp : List Char) :
    (containsCI "BILLING".toList resp →
      pattern_routing_dispatch resp = Route.billing) ∧
    (¬ containsCI "BILLING".toList resp →
      containsCI "TECHNICAL".toList resp →
      pattern_routing_dispatch resp = Route.technical) ∧
    (¬ containsCI "BILLING".toList resp →
      ¬ containsCI "TECHNICAL".toList resp →
      pattern_routing_dispatch resp = Route.general) := by
  have hb := containsCI_iff_containsSub "BILLING".toList resp
    (by decide) (by decide)
  have ht := containsCI_iff_containsSub "TECHNICAL".toList resp
    (by decide) (by decide)
  refine ⟨?_, ?_, ?_⟩
  · intro h
    have hx := hb.mp h
    simp only [pattern_routing_dispatch]
    rw [hx]
    simp
  · intro h1 h2
    have hb' : containsSub "BILLING".toList (upperStripped resp) = false := by
      cases hcs : containsSub "BILLING".toList (upperStripped resp)
      · rfl
      · exact absurd (hb.mpr hcs) h1
    have hy := ht.mp h2
    simp only [pattern_routing_dispatch]
    rw [hb', hy]
    simp
  · intro h1 h2
    have hb' : containsSub "BILLING".toList (upperStripped resp) = false := by
      cases hcs : containsSub "BILLING".toList (upperStripped resp)
      · rfl
      · exact absurd (hb.mpr hcs) h1
    have ht' : containsSub "TECHNICAL".toList (upperStripped resp) = false := by
      cases hcs : containsSub "TECHNICAL".toList (upperStripped resp)
      · rfl
      · exact absurd (ht.mpr hcs) h2
    simp only [pattern_routing_dispatch]
    rw [hb', ht']
    simp

theorem C3_routing_dispatch_witness :
    pattern_routing_dispatch "  billing and Technical issue".toList = Route.billing ∧
    pattern_routing_dispatch " a technical bug ".toList = Route.technical ∧
    pattern_routing_dispatch "tell me a joke".toList = Route.general := by
  have nb1 : ¬ containsCI "BILLING".toList " a technical bug ".toList := by
    intro h
    exact absurd ((containsCI_iff_containsSub _ _ (by decide) (by decide)).mp h)
      (by decide)
  have nb2 : ¬ containsCI "BILLING".toList "tell me a joke".toList := by
    intro h
    exact absurd ((containsCI_iff_containsSub _ _ (by decide) (by decide)).mp h)
      (by decide)
  have nt2 : ¬ containsCI "TECHNICAL".toList "tell me a joke".toList := by
    intro h
    exact absurd ((containsCI_iff_containsSub _ _ (by decide) (by decide)).mp h)
      (by decide)
  refine ⟨?_, ?_, ?_⟩
  · exact (C3_routing_dispatch _).1
      ⟨"  ".toList, "billing".toList, " and Technical issue".toList,
        by decide, by decide⟩
  · exact (C3_routing_dispatch _).2.1 nb1
      ⟨" a ".toList, "technical".toList, " bug ".toList, by decide, by decide⟩
  · exact (C3_routing_dispatch _).2.2 nb2 nt2

/-! ## Pattern 3: Parallelization / Scatter-Gather (`pattern_parallelization`,
`run_consensus`)

Three branch calls are launched; `asyncio.gather(task1, task2, task3)` stores
each branch's result at the branch's launch position as it completes and
returns the slots read in launch order.  We model the nondeterministic
completion schedule as an arbitrary list `order` of branch indices (the order
in which completions arrive, an arbitrary interleaving); `gather` is the
slot-filling fold over that schedule.  The synthesis input is then built
positionally: `f"Optimist: {results[0]}\nPessimist: {results[1]}\nRealist:
{results[2]}"`. -/

/-- Slot contents after processing the completions in `order`: completion of
branch `i` writes `res i` into slot `i`. -/
def gatherSlots (order : List (Fin 3)) (res : Fin 3 → String) : Fin 3 → Option String :=
  order.foldl (fun acc i => fun k => if k = i then some (res i) else acc k)
    (fun _ => none)

theorem gatherSlots_foldl (order : List (Fin 3)) (res : Fin 3 → String)
    (init : Fin 3 → Option String) (j : Fin 3) :
    (order.foldl (fun acc i => fun k => if k = i then some (res i) else acc k) init) j
      = if j ∈ order then some (res j) else init j := by
  induction order generalizing init with
  | nil => simp
  | cons c rest ih =>
    simp only [List.foldl_cons, ih, List.mem_cons]
    by_cases hj : j ∈ rest
    · simp [hj]
    · by_cases hc : j = c
      · subst hc; simp [hj]
      · simp [hj, hc]

theorem gatherSlots_eval (order : List (Fin 3)) (res : Fin 3 → String) (j : Fin 3) :
    gatherSlots order res j = if j ∈ order then some (res j) else none :=
  gatherSlots_foldl order res (fun _ => none) j

/-- The `combined_input` fed to the synthesis call, built from the gathered
slots in launch order (branch 0 = Optimist, 1 = Pessimist, 2 = Realist). -/
def pattern_parallelization_combined (order : List (Fin 3)) (res : Fin 3 → String) :
    String :=
  let slots := gatherSlots order res
  "Optimist: " ++ (slots 0).getD "" ++ "\nPessimist: " ++ (slots 1).getD "" ++
    "\nRealist: " ++ (slots 2).getD ""

/-- C4: for every completion schedule that is a permutation of the three
launched branches (i.e. every branch completes, in any order), the synthesis
input lists branch 0's text first, branch 1's second, branch 2's third —
launch order, independent of completion order. -/
theorem C4_scatter_gather_launch_order (order : List (Fin 3)) (res : Fin 3 → String)
    (h : order.Perm [0, 1, 2]) :
    pattern_parallelization_combined order res =
      "Optimist: " ++ res 0 ++ "\nPessimist: " ++ res 1 ++ "\nRealist: " ++ res 2 := by
  have hm : ∀ j : Fin 3, j ∈ order := by
    intro j
    rw [h.mem_iff]
    fin_cases j <;> decide
  simp [pattern_parallelization_combined, gatherSlots_eval, hm]

theorem C4_scatter_gather_launch_order_witness :
    pattern_parallelization_combined [2, 1, 0]
        (fun i => if i = 0 then "A" else if i = 1 then "B" else "C") =
      "Optimist: A\nPessimist: B\nRealist: C" := by
  have h := C4_scatter_gather_launch_order [2, 1, 0]
    (fun i => if i = 0 then "A" else if i = 1 then "B" else "C") (by decide)
  simpa using h

/-! ## Pattern 4: Orchestrator-Workers (`pattern_orchestrator`)

The planner response is parsed with:
```
try:
    tasks = json.loads(plan_response).get("tasks", [])
    if not tasks: tasks = list(json.loads(plan_response).values())[0]
except:
    tasks = ["Write history of coffee", "Write health benefits of coffee"]
```
and the workers then run `for i, task in enumerate(tasks)`.  We model the
decoded planner response as `Option Json` (`none` = `json.loads` raised), the
`try/except` as `planTasks`, and `enumerate(tasks)` as `iterateTasks`
(Python iterates a list by elements, a string by characters, a dict by keys,
and raises TypeError on a non-iterable). -/

inductive Json where
  | null
  | bool (b : Bool)
  | num (n : Int)
  | str (s : String)
  | arr (elts : List Json)
  | obj (fields : List (String × Json))

/-- Python truthiness of a decoded JSON value. -/
def jsonTruthy : Json → Bool
  | .null => false
  | .bool b => b
  | .num n => n ≠ 0
  | .str s => s ≠ ""
  | .arr l => !l.isEmpty
  | .obj f => !f.isEmpty

/-- `dict.get` on the decoded object's fields (keys are unique in a decoded
JSON object). -/
def lookupField : List (String × Json) → String → Option Json
  | [], _ => none
  | (k, v) :: rest, key => if k = key then some v else lookupField rest key

/-- The hardcoded fallback decomposition from the `except` branch. -/
def fallbackTasks : Json :=
  .arr [.str "Write history of coffee", .str "Write health benefits of coffee"]

/-- Value of the `tasks` variable after the `try/except`.  Exceptions inside
the `try` (decode failure, `.get` on a non-dict, `values()[0]` on an empty
dict) all land in the `except` branch. -/
def planTasks : Option Json → Json
  | none => fallbackTasks
  | some (.obj fields) =>
    let t := (lookupField fields "tasks").getD (Json.arr [])
    if jsonTruthy t then t
    else
      match fields with
      | [] => fallbackTasks
      | (_, v) :: _ => v
  | some _ => fallbackTasks

/-- `enumerate(tasks)` in the worker phase: iterating a non-iterable value
raises `TypeError` (outside the `try/except`, so it aborts the pattern). -/
def iterateTasks : Json → Except String (List Json)
  | .arr l => .ok l
  | .str s => .ok (s.toList.map (fun c => Json.str (String.singleton c)))
  | .obj f => .ok (f.map (fun kv => Json.str kv.1))
  | _ => .error "TypeError"

/-- The sequence of worker sub-tasks the pattern ends up iterating over, or
the abort it dies with. -/
def pattern_orchestrator_tasks (resp : Option Json) : Except String (List Json) :=
  iterateTasks (planTasks resp)

/-- C7 counterexample: the planner response `{"tasks": 5}` cannot be parsed
as a sub-task list, yet the orchestrator does NOT substitute the fixed
fallback decomposition (it keeps the value `5`) and the worker phase then
raises `TypeError`, aborting the pattern — refuting both halves of the
claim at this input. -/
theorem C7_counterexample_nonlist_tasks :
    planTasks (some (Json.obj [("tasks", Json.num 5)])) ≠ fallbackTasks ∧
    planTasks (some (Json.obj [("tasks", Json.num 5)])) = Json.num 5 ∧
    pattern_orchestrator_tasks (some (Json.obj [("tasks", Json.num 5)])) =
      Except.error "TypeError" :=
  ⟨by intro h; simp [planTasks, lookupField, jsonTruthy, fallbackTasks] at h, rfl, rfl⟩

/-- C7 amended: whenever extracting the sub-task value raises inside the
`try` — the planner response fails to decode, decodes to a non-object, or
decodes to an empty object — the orchestrator substitutes the fixed fallback
decomposition and the worker phase proceeds on it without aborting.  (A
decoded object carrying a truthy non-sequence value is instead passed through
un-replaced and can abort the worker phase, per the counterexample.) -/
theorem C7_orchestrator_fallback_amended (resp : Option Json) :
    (resp = none → planTasks resp = fallbackTasks) ∧
    (∀ j, resp = some j → (∀ fields, j ≠ Json.obj fields) →
      planTasks resp = fallbackTasks) ∧
    (resp = some (Json.obj []) → planTasks resp = fallbackTasks) ∧
    pattern_orchestrator_tasks none =
      Except.ok [Json.str "Write history of coffee",
        Json.str "Write health benefits of coffee"] := by
  refine ⟨?_, ?_, ?_, rfl⟩
  · rintro rfl; rfl
  · rintro j rfl hobj
    cases j with
    | obj fields => exact absurd rfl (hobj fields)
    | null => rfl
    | bool b => rfl
    | num n => rfl
    | str s => rfl
    | arr l => rfl
  · rintro rfl; rfl

theorem C7_orchestrator_fallback_amended_witness :
    planTasks none = fallbackTasks ∧
    planTasks (some (Json.str "oops")) = fallbackTasks ∧
    planTasks (some (Json.obj [])) = fallbackTasks := by
  refine ⟨(C7_orchestrator_fallback_amended none).1 rfl, ?_, ?_⟩
  · exact (C7_orchestrator_fallback_amended (some (Json.str "oops"))).2.1
      (Json.str "oops") rfl (fun fields h => by cases h)
  · exact (C7_orchestrator_fallback_amended (some (Json.obj []))).2.2.1 rfl

/-! ## Tool-calling agent loop (`smart_investor_local.run_agent`)

Once an `Action: tool_name[input]` is recognized, the loop runs
```
if tool_name in tools:
    try: observation = tools[tool_name](tool_input)
    except Exception as e: observation = f"Error: {str(e)}"
else:
    observation = f"Error: Tool '{tool_name}' not found."
messages.append({"role": "user", "content": f"Observation: {observation}"})
```
A tool implementation is modelled as `String → Except String String`
(`.error e` models the implementation raising, with `str(e) = e`). -/

structure Message where
  role : String
  content : String
deriving DecidableEq, Repr

/-- The registry: tool name → implementation, in registration order. -/
def lookupTool (impls : List (String × (String → Except String String)))
    (name : String) : Option (String → Except String String) :=
  match impls with
  | [] => none
  | (k, f) :: rest => if k = name then some f else lookupTool rest name

/-- The single-quote character (for the error-message text). -/
def sq : String := String.singleton (Char.ofNat 39)

/-- `f"Error: Tool '{tool_name}' not found."` -/
def unknownToolObservation (name : String) : String :=
  "Error: Tool " ++ sq ++ name ++ sq ++ " not found."

/-- One tool-dispatch step of `run_agent`: the observation computed for the
parsed action, appended to the transcript as a user message.  The result type
is `Except`: an uncaught exception would surface as `.error`. -/
def run_agent_tool_turn (impls : List (String × (String → Except String String)))
    (msgs : List Message) (name input : String) : Except String (List Message) :=
  match lookupTool impls name with
  | some impl =>
    match impl input with
    | .ok obs => .ok (msgs ++ [⟨"user", "Observation: " ++ obs⟩])
    | .error e => .ok (msgs ++ [⟨"user", "Observation: " ++ ("Error: " ++ e)⟩])
  | none => .ok (msgs ++ [⟨"user", "Observation: " ++ unknownToolObservation name⟩])

/-- The two concrete tools registered by the source file. -/
def get_stock_price (ticker : String) : String :=
  ticker ++ " is currently trading at $215.40"

def get_news (query : String) : String :=
  "Recent news for " ++ query ++ ": Analysts predict strong growth due to AI demand."

def toolsRegistry : List (String × (String → Except String String)) :=
  [("get_stock_price", fun t => .ok (get_stock_price t)),
   ("get_news", fun q => .ok (get_news q))]

/-- C8: a tool call naming an unregistered tool produces the UnknownTool
error-observation string fed back into the transcript (never an exception
escaping the turn), and a registered tool whose implementation raises
likewise has its error message fed back as the observation. -/
theorem C8_unknown_tool_recovery
    (impls : List (String × (String → Except String String)))
    (msgs : List Message) (name input : String) :
    (lookupTool impls name = none →
      run_agent_tool_turn impls msgs name input =
        .ok (msgs ++ [⟨"user", "Observation: " ++ unknownToolObservation name⟩])) ∧
    (∀ impl e, lookupTool impls name = some impl → impl input = .error e →
      run_agent_tool_turn impls msgs name input =
        .ok (msgs ++ [⟨"user", "Observation: " ++ ("Error: " ++ e)⟩])) := by
  constructor
  · intro h
    simp [run_agent_tool_turn, h]
  · intro impl e h1 h2
    simp [run_agent_tool_turn, h1, h2]

theorem C8_unknown_tool_recovery_witness :
    run_agent_tool_turn toolsRegistry [] "get_weather" "NYC" =
      .ok [⟨"user", "Observation: " ++ unknownToolObservation "get_weather"⟩] ∧
    run_agent_tool_turn [("boom", fun _ => .error "division by zero")] []
        "boom" "x" =
      .ok [⟨"user", "Observation: " ++ ("Error: " ++ "division by zero")⟩] := by
  constructor
  · exact (C8_unknown_tool_recovery toolsRegistry [] "get_weather" "NYC").1 rfl
  · exact (C8_unknown_tool_recovery [("boom", fun _ => .error "division by zero")]
      [] "boom" "x").2 (fun _ => .error "division by zero") "division by zero" rfl rfl

/-! ## Tracer (`Production-Ready.Tracer`)

`start_span` appends a RUNNING span and returns `len(self.spans) - 1`;
`end_span(span_index, output)` does `span = self.spans[span_index]`, seals it
and appends it to the log file.  Python list indexing accepts negative
indices (`-1` is the last element) and raises `IndexError` only when the
normalized index is out of range; nothing guards against ending a span
twice. -/

structure Span where
  span_name : String
  span_input : String
  output : Option String
  status : String
deriving DecidableEq, Repr

structure TracerState where
  trace_id : String
  spans : List Span
  log : List Span
deriving DecidableEq, Repr

/-- `start_span`: appends a RUNNING span, returns the span index handle. -/
def Tracer.start_span (t : TracerState) (name input : String) : TracerState × Nat :=
  ({ t with spans := t.spans ++ [⟨name, input, none, "RUNNING"⟩] }, t.spans.length)

/-- Python list-index normalization: negative indices count from the end;
out-of-range raises `IndexError` (modelled as `none`). -/
def pyListIdx (len : Nat) (i : Int) : Option Nat :=
  if 0 ≤ i then (if i.toNat < len then some i.toNat else none)
  else (if (-i).toNat ≤ len then some (len - (-i).toNat) else none)

/-- `end_span`: seals `self.spans[span_index]` and appends the sealed record
to the log. -/
def Tracer.end_span (t : TracerState) (handle : Int) (out : String) :
    Except String TracerState :=
  match pyListIdx t.spans.length handle with
  | none => .error "IndexError"
  | some idx =>
    let sp := t.spans.getD idx ⟨"", "", none, ""⟩
    let sealed : Span := { sp with output := some out, status := "COMPLETED" }
    .ok { t with spans := t.spans.set idx sealed, log := t.log ++ [sealed] }

def exceptOk : Except String TracerState → Bool
  | .ok _ => true
  | .error _ => false

def exceptGetD (e : Except String TracerState) (d : TracerState) : TracerState :=
  match e with
  | .ok t => t
  | .error _ => d

/-- C9 counterexample: after a single `start_span` (which returned handle 0),
ending handle `-1` — a handle value never returned by any `start_span` —
succeeds (it aliases span 0) instead of failing; and the same span can then
be ended twice, each end appending another log record.  This refutes both
"every handle not returned by a prior startSpan fails with InvalidSpanHandle"
and "no span may be ended twice". -/
theorem C9_counterexample_end_span :
    (Tracer.start_span ⟨"t", [], []⟩ "s" "in").2 = 0 ∧
    exceptOk (Tracer.end_span (Tracer.start_span ⟨"t", [], []⟩ "s" "in").1
      (-1) "out") = true ∧
    (let t1 := (Tracer.start_span ⟨"t", [], []⟩ "s" "in").1
     let t2 := exceptGetD (Tracer.end_span t1 0 "a") t1
     exceptOk (Tracer.end_span t2 0 "b") = true ∧
       (exceptGetD (Tracer.end_span t2 0 "b") t2).log.length = 2) := by
  refine ⟨rfl, ?_, ?_, ?_⟩ <;> decide

/-- C9 amended: `end_span` fails (with Python's `IndexError`, the code's
analogue of `InvalidSpanHandle`) exactly when the handle is out of range
after Python's negative-index normalization; every handle actually returned
by a prior `start_span` (a natural index below the span count) succeeds —
but so do negative aliases, and nothing prevents ending a span twice. -/
theorem C9_end_span_amended (t : TracerState) (h : Int) (out : String) :
    (exceptOk (Tracer.end_span t h out) = false ↔
      pyListIdx t.spans.length h = none) ∧
    (∀ n : Nat, h = (n : Int) → n < t.spans.length →
      exceptOk (Tracer.end_span t h out) = true) := by
  constructor
  · cases hidx : pyListIdx t.spans.length h with
    | none => simp [Tracer.end_span, hidx, exceptOk]
    | some idx => simp [Tracer.end_span, hidx, exceptOk]
  · intro n hn hlt
    subst hn
    have hidx : pyListIdx t.spans.length (n : Int) = some n := by
      unfold pyListIdx
      simp [hlt]
    simp [Tracer.end_span, hidx, exceptOk]

theorem C9_end_span_amended_witness :
    exceptOk (Tracer.end_span ⟨"t", [⟨"s", "in", none, "RUNNING"⟩], []⟩ 0 "o")
      = true :=
  (C9_end_span_amended ⟨"t", [⟨"s", "in", none, "RUNNING"⟩], []⟩ 0 "o").2
    0 rfl (by decide)

/-! ## Guardrail: PII redaction (`pii_guardrail` in autonomousclaims.py,
`guardrail_pii` in Production-Ready.py)

`pii_guardrail` applies, in order,
`re.sub(r'[a-zA-Z0-9_.+-]+@[a-zA-Z0-9-]+\.[a-zA-Z0-9-.]+', "[REDACTED_EMAIL]", text)`
and `re.sub(r'\b\d{3}[-.]?\d{3}[-.]?\d{4}\b', "[REDACTED_PHONE]", text)`.
`guardrail_pii` applies
`re.sub(r'[a-zA-Z0-9._%+-]+@[a-zA-Z0-9.-]+\.[a-zA-Z]{2,}', "[REDACTED_EMAIL]", result)`.

`re.sub` replaces the non-overlapping matches found scanning the original
string left to right, restarting after each match's end.  For these patterns
backtracking is degenerate except for the second email pattern's domain
(where `[a-zA-Z0-9.-]+` must give back a final `.tld`; Python tries the
longest domain first), so each matcher below computes exactly the match
Python's engine finds at a given start position.  `\d`/`\w` are modelled at
ASCII (the sources only produce ASCII text). -/

def isWordChar (c : Char) : Bool := c.isAlphanum || c = '_'

def isSepChar (c : Char) : Bool := c = '-' || c = '.'

def isLocalChar (c : Char) : Bool :=
  c.isAlphanum || c = '_' || c = '.' || c = '+' || c = '-'

def isDomainChar (c : Char) : Bool := c.isAlphanum || c = '-'

def isTldChar (c : Char) : Bool := c.isAlphanum || c = '-' || c = '.'

/-- Length of the maximal prefix run of characters satisfying `p`
(the behaviour of a greedy `[class]+` / `[class]*`). -/
def runLen (p : Char → Bool) : List Char → Nat
  | [] => 0
  | c :: t => if p c then runLen p t + 1 else 0

/-- Match of `[a-zA-Z0-9_.+-]+@[a-zA-Z0-9-]+\.[a-zA-Z0-9-.]+` at the start of
`s`, returning the matched length.  Greediness is deterministic: `@` is not a
local character and `.` is not a domain character, so the engine's
backtracking never helps. -/
def matchEmail (s : List Char) : Option Nat :=
  let l := runLen isLocalChar s
  if l = 0 then none
  else if (List.drop l s).head? = some '@' then
    let r2 := (List.drop l s).tail
    let d := runLen isDomainChar r2
    if d = 0 then none
    else if (List.drop d r2).head? = some '.' then
      let r3 := (List.drop d r2).tail
      let t := runLen isTldChar r3
      if t = 0 then none else some (l + 1 + d + 1 + t)
    else none
  else none

/-- `\b` after the final `\d{4}`: the next character must not be a word
character (or the string ends). -/
def bOk : List Char → Bool
  | [] => true
  | c :: _ => !isWordChar c

/-- `[-.]?`: consume one separator if present (the zero-width alternative
always fails afterwards on `\d`, since a separator is not a digit). -/
def sepSkip : List Char → List Char × List Char
  | [] => ([], [])
  | c :: t => if isSepChar c then ([c], t) else ([], c :: t)

/-- `\d{k}` at the start of `l`. -/
def takeDigits : Nat → List Char → Option (List Char × List Char)
  | 0, l => some ([], l)
  | _ + 1, [] => none
  | k + 1, c :: t =>
    if c.isDigit then (takeDigits k t).map (fun g => (c :: g.1, g.2)) else none

/-- Match of `\b\d{3}[-.]?\d{3}[-.]?\d{4}\b` at the start of `s`, where
`prevW` tells whether the character immediately before this position is a
word character (`\b` before `\d` holds iff it is not). -/
def matchPhone (prevW : Bool) (s : List Char) : Option Nat :=
  if prevW then none
  else
    (takeDigits 3 s).bind fun g1 =>
      let p1 := sepSkip g1.2
      (takeDigits 3 p1.2).bind fun g2 =>
        let p2 := sepSkip g2.2
        (takeDigits 4 p2.2).bind fun g3 =>
          if bOk g3.2 then some (10 + p1.1.length + p2.1.length) else none

def sentinelEmail : List Char := "[REDACTED_EMAIL]".toList

def sentinelPhone : List Char := "[REDACTED_PHONE]".toList

/-- `re.sub` scan for the email pattern: at each position try the matcher; on
a match emit the sentinel and resume after the matched text (which is never
rescanned), otherwise keep the character and advance.  `fuel ≥ length`
guarantees full evaluation. -/
def emailSubAux : Nat → List Char → List Char
  | 0, s => s
  | _ + 1, [] => []
  | fuel + 1, c :: rest =>
    match matchEmail (c :: rest) with
    | some n => sentinelEmail ++ emailSubAux fuel (List.drop (n - 1) rest)
    | none => c :: emailSubAux fuel rest

def emailSub (s : List Char) : List Char := emailSubAux s.length s

/-- `re.sub` scan for the phone pattern.  The scan context `prevW` tracks the
word-ness of the previous character of the ORIGINAL string (Python evaluates
`\b` on the original string, and every phone match ends in a digit, so the
context after a replacement is `true`). -/
def phoneSubAux : Nat → Bool → List Char → List Char
  | 0, _, s => s
  | _ + 1, _, [] => []
  | fuel + 1, prevW, c :: rest =>
    match matchPhone prevW (c :: rest) with
    | some n => sentinelPhone ++ phoneSubAux fuel true (List.drop (n - 1) rest)
    | none => c :: phoneSubAux fuel (isWordChar c) rest

def phoneSub (s : List Char) : List Char := phoneSubAux s.length false s

/-- The `redact` closure of `pii_guardrail`: email substitution, then phone
substitution. -/
def redactL (s : List Char) : List Char := phoneSub (emailSub s)

/-- `pii_guardrail` on a string content. -/
def pii_guardrail_redact (text : String) : String := ⟨redactL text.toList⟩

example :
    pii_guardrail_redact "Contact a@b.com or 555-123-4567" =
      "Contact [REDACTED_EMAIL] or [REDACTED_PHONE]" := by decide

/-! Character classes of the Production-Ready.py email pattern. -/

def isLocalPR (c : Char) : Bool :=
  c.isAlphanum || c = '.' || c = '_' || c = '%' || c = '+' || c = '-'

def isDomainPR (c : Char) : Bool := c.isAlphanum || c = '.' || c = '-'

def isAsciiLetter (c : Char) : Bool := c.isAlpha

/-- The domain/tld split search for `[a-zA-Z0-9.-]+\.[a-zA-Z]{2,}`: Python's
engine takes the maximal domain run and gives characters back one at a time,
i.e. it uses the largest `d ≥ 1` such that `r2[d] = '.'` followed by at least
two letters; the tld is then the maximal letter run. -/
def findSplit (r2 : List Char) : Nat → Option (Nat × Nat)
  | 0 => none
  | j + 1 =>
    if r2.get? (j + 1) = some '.' ∧
        2 ≤ runLen isAsciiLetter (List.drop (j + 2) r2) then
      some (j + 1, runLen isAsciiLetter (List.drop (j + 2) r2))
    else findSplit r2 j

/-- Match of `[a-zA-Z0-9._%+-]+@[a-zA-Z0-9.-]+\.[a-zA-Z]{2,}` at the start
of `s`. -/
def matchEmailPR (s : List Char) : Option Nat :=
  let l := runLen isLocalPR s
  if l = 0 then none
  else if (List.drop l s).head? = some '@' then
    let r2 := (List.drop l s).tail
    match findSplit r2 (runLen isDomainPR r2) with
    | some dt => some (l + 1 + dt.1 + 1 + dt.2)
    | none => none
  else none

def emailSubPRAux : Nat → List Char → List Char
  | 0, s => s
  | _ + 1, [] => []
  | fuel + 1, c :: rest =>
    match matchEmailPR (c :: rest) with
    | some n => sentinelEmail ++ emailSubPRAux fuel (List.drop (n - 1) rest)
    | none => c :: emailSubPRAux fuel rest

def emailSubPR (s : List Char) : List Char := emailSubPRAux s.length s

/-- `guardrail_pii`'s redaction of a string result. -/
def guardrail_pii_redact (text : String) : String := ⟨emailSubPR text.toList⟩

example :
    guardrail_pii_redact "Sure, I can help. Contact support at admin@company.com for details." =
      "Sure, I can help. Contact support at [REDACTED_EMAIL] for details." := by decide

example : guardrail_pii_redact "no pii here" = "no pii here" := by decide

/-! ### Basic facts about the matcher building blocks -/

theorem runLen_le_length (p : Char → Bool) (s : List Char) : runLen p s ≤ s.length := by
  induction s with
  | nil => simp [runLen]
  | cons c t ih =>
    by_cases h : p c = true <;> simp [runLen, h] <;> omega

theorem runLen_append_all (p : Char → Bool) (u v : List Char)
    (h : ∀ c ∈ u, p c = true) : runLen p (u ++ v) = u.length + runLen p v := by
  induction u with
  | nil => simp
  | cons c t ih =>
    have hc := h c (by simp)
    have ht := ih (fun x hx => h x (by simp [hx]))
    simp [runLen, hc, ht]
    omega

theorem runLen_stopped (p : Char → Bool) (u : List Char) (c : Char) (v : List Char)
    (hu : ∀ x ∈ u, p x = true) (hc : p c = false) :
    runLen p (u ++ c :: v) = u.length := by
  rw [runLen_append_all p u _ hu]
  simp [runLen, hc]

theorem runLen_take_all (p : Char → Bool) (s : List Char) (k : Nat)
    (hk : k ≤ runLen p s) : ∀ c ∈ List.take k s, p c = true := by
  induction s generalizing k with
  | nil => simp
  | cons c t ih =>
    intro x hx
    cases k with
    | zero => simp at hx
    | succ k' =>
      by_cases hc : p c = true
      · simp only [runLen, hc, if_true] at hk
        simp only [List.take_succ_cons, List.mem_cons] at hx
        rcases hx with rfl | hx
        · exact hc
        · exact ih k' (by omega) x hx
      · simp [runLen, hc] at hk

theorem runLen_drop_head (p : Char → Bool) (s : List Char) (c : Char) (t : List Char)
    (h : List.drop (runLen p s) s = c :: t) : p c = false := by
  induction s with
  | nil => simp at h
  | cons a s' ih =>
    by_cases ha : p a = true
    · simp [runLen, ha] at h
      exact ih h
    · have ha' : p a = false := by simpa using ha
      simp [runLen, ha'] at h
      rw [← h.1]
      exact ha'

theorem headAfterRun (p : Char → Bool) (v : List Char)
    (hb : ∃ b ∈ v, p b = false) (t : List Char) :
    ∃ x r, List.drop (runLen p (v ++ t)) (v ++ t) = x :: r ∧ x ∈ v ∧ p x = false := by
  induction v with
  | nil => simp at hb
  | cons c v' ih =>
    by_cases hc : p c = true
    · have hb' : ∃ b ∈ v', p b = false := by
        obtain ⟨b, hbv, hbp⟩ := hb
        rcases List.mem_cons.mp hbv with rfl | hmem
        · rw [hc] at hbp; simp at hbp
        · exact ⟨b, hmem, hbp⟩
      obtain ⟨x, r, h1, h2, h3⟩ := ih hb'
      refine ⟨x, r, ?_, List.mem_cons_of_mem _ h2, h3⟩
      simpa [runLen, hc] using h1
    · have hc' : p c = false := by simpa using hc
      exact ⟨c, v' ++ t, by simp [runLen, hc'], by simp, hc'⟩

theorem takeDigits_some (k : Nat) (l g r : List Char)
    (h : takeDigits k l = some (g, r)) :
    l = g ++ r ∧ g.length = k ∧ ∀ c ∈ g, c.isDigit = true := by
  induction k generalizing l g r with
  | zero =>
    simp only [takeDigits, Option.some.injEq, Prod.mk.injEq] at h
    obtain ⟨h1, h2⟩ := h
    subst h1
    subst h2
    simp
  | succ k' ih =>
    cases l with
    | nil => simp [takeDigits] at h
    | cons c t =>
      by_cases hc : c.isDigit = true
      · unfold takeDigits at h
        rw [if_pos hc] at h
        cases ht : takeDigits k' t with
        | none => rw [ht] at h; simp at h
        | some gr =>
          obtain ⟨g', r'⟩ := gr
          rw [ht] at h
          simp only [Option.map_some', Option.some.injEq, Prod.mk.injEq] at h
          obtain ⟨hg, hr⟩ := h
          obtain ⟨heq, hlen, hdig⟩ := ih t g' r' ht
          subst hg
          subst hr
          refine ⟨by simp [heq], by simp [hlen], ?_⟩
          intro x hx
          rcases List.mem_cons.mp hx with rfl | hx
          · exact hc
          · exact hdig x hx
      · simp [takeDigits, hc] at h

theorem takeDigits_complete (g r : List Char)
    (hd : ∀ c ∈ g, c.isDigit = true) :
    takeDigits g.length (g ++ r) = some (g, r) := by
  induction g with
  | nil => simp [takeDigits]
  | cons c t ih =>
    have hc := hd c (by simp)
    simp [takeDigits, hc, ih (fun x hx => hd x (by simp [hx]))]

/-- `[-.]?` as produced by `sepSkip`. -/
def SepOpt (s1 : List Char) : Prop :=
  s1 = [] ∨ ∃ c, s1 = [c] ∧ isSepChar c = true

theorem sepSkip_eq (l : List Char) : l = (sepSkip l).1 ++ (sepSkip l).2 := by
  cases l with
  | nil => rfl
  | cons c t => by_cases h : isSepChar c = true <;> simp [sepSkip, h]

theorem sepSkip_sepOpt (l : List Char) : SepOpt (sepSkip l).1 := by
  cases l with
  | nil => exact Or.inl rfl
  | cons c t =>
    by_cases h : isSepChar c = true
    · exact Or.inr ⟨c, by simp [sepSkip, h], h⟩
    · simp [sepSkip, h, SepOpt]

theorem sepSkip_complete (s1 X : List Char) (h : SepOpt s1)
    (hX : s1 = [] → ∀ c t, X = c :: t → isSepChar c = false) :
    sepSkip (s1 ++ X) = (s1, X) := by
  rcases h with rfl | ⟨c, rfl, hc⟩
  · cases X with
    | nil => rfl
    | cons c t =>
      have := hX rfl c t rfl
      simp [sepSkip, this]
  · simp [sepSkip, hc]

theorem matchPhone_prevW_true (s : List Char) : matchPhone true s = none := by
  simp [matchPhone]

theorem matchPhone_nondigit (prevW : Bool) (c : Char) (t : List Char)
    (hc : c.isDigit = false) : matchPhone prevW (c :: t) = none := by
  unfold matchPhone
  cases prevW with
  | true => simp
  | false => simp [takeDigits, hc]

theorem isWordChar_of_digit (c : Char) (h : c.isDigit = true) :
    isWordChar c = true := by
  simp [isWordChar, Char.isAlphanum, h]

theorem isSepChar_not_digit (c : Char) (h : c.isDigit = true) :
    isSepChar c = false := by
  simp only [isSepChar, Bool.or_eq_false_iff, decide_eq_false_iff_not]
  constructor <;> rintro rfl <;> simp at h

theorem matchEmail_wall (v t : List Char)
    (hb : ∃ b ∈ v, isLocalChar b = false) (ha : '@' ∉ v) :
    matchEmail (v ++ t) = none := by
  obtain ⟨x, r, h1, h2, h3⟩ := headAfterRun isLocalChar v hb t
  unfold matchEmail
  by_cases hl : runLen isLocalChar (v ++ t) = 0
  · simp [hl]
  · have hx : ¬ (x = '@') := fun hxe => ha (hxe ▸ h2)
    simp [hl, h1, hx]

theorem matchEmailPR_wall (v t : List Char)
    (hb : ∃ b ∈ v, isLocalPR b = false) (ha : '@' ∉ v) :
    matchEmailPR (v ++ t) = none := by
  obtain ⟨x, r, h1, h2, h3⟩ := headAfterRun isLocalPR v hb t
  unfold matchEmailPR
  by_cases hl : runLen isLocalPR (v ++ t) = 0
  · simp [hl]
  · have hx : ¬ (x = '@') := fun hxe => ha (hxe ▸ h2)
    simp [hl, h1, hx]

/-! ### Matchers characterized by explicit decompositions -/

/-- A string starting with a full match of the `pii_guardrail` email pattern:
`local+ @ domain+ . tld+` followed by anything. -/
def EmailDecomp (s : List Char) : Prop :=
  ∃ l₀ d₀ t₀ rest, s = (l₀ ++ '@' :: (d₀ ++ '.' :: t₀)) ++ rest ∧
    l₀ ≠ [] ∧ (∀ c ∈ l₀, isLocalChar c = true) ∧
    d₀ ≠ [] ∧ (∀ c ∈ d₀, isDomainChar c = true) ∧
    t₀ ≠ [] ∧ (∀ c ∈ t₀, isTldChar c = true)

theorem matchEmail_some_decomp (s : List Char) (n : Nat)
    (h : matchEmail s = some n) : EmailDecomp s := by
  simp only [matchEmail] at h
  split_ifs at h with h1 h2 h3 h4 h5
  all_goals try (exact Option.noConfusion h)
  -- the successful branch
  · have hL := runLen_le_length isLocalChar s
    refine ⟨s.take (runLen isLocalChar s),
      (List.drop (runLen isLocalChar s) s).tail.take
        (runLen isDomainChar (List.drop (runLen isLocalChar s) s).tail),
      ((List.drop (runLen isDomainChar (List.drop (runLen isLocalChar s) s).tail)
        (List.drop (runLen isLocalChar s) s).tail).tail).take
        (runLen isTldChar
          (List.drop (runLen isDomainChar (List.drop (runLen isLocalChar s) s).tail)
            (List.drop (runLen isLocalChar s) s).tail).tail),
      ((List.drop (runLen isDomainChar (List.drop (runLen isLocalChar s) s).tail)
        (List.drop (runLen isLocalChar s) s).tail).tail).drop
        (runLen isTldChar
          (List.drop (runLen isDomainChar (List.drop (runLen isLocalChar s) s).tail)
            (List.drop (runLen isLocalChar s) s).tail).tail),
      ?_, ?_, ?_, ?_, ?_, ?_, ?_⟩
    · have e1 : s.take (runLen isLocalChar s) ++ List.drop (runLen isLocalChar s) s = s :=
        List.take_append_drop _ s
      have e2 : '@' :: (List.drop (runLen isLocalChar s) s).tail
          = List.drop (runLen isLocalChar s) s :=
        List.cons_head?_tail h2
      set R2 := (List.drop (runLen isLocalChar s) s).tail with hR2
      have e3 : R2.take (runLen isDomainChar R2) ++ List.drop (runLen isDomainChar R2) R2
          = R2 := List.take_append_drop _ R2
      have e4 : '.' :: (List.drop (runLen isDomainChar R2) R2).tail
          = List.drop (runLen isDomainChar R2) R2 :=
        List.cons_head?_tail h4
      set R3 := (List.drop (runLen isDomainChar R2) R2).tail with hR3
      have e5 : R3.take (runLen isTldChar R3) ++ R3.drop (runLen isTldChar R3) = R3 :=
        List.take_append_drop _ R3
      conv_lhs => rw [← e1, ← e2, ← e3, ← e4, ← e5]
      simp
    · have : (s.take (runLen isLocalChar s)).length = runLen isLocalChar s := by
        rw [List.length_take]
        omega
      intro hnil
      rw [hnil] at this
      simp only [List.length_nil] at this
      exact h1 this.symm
    · exact runLen_take_all isLocalChar s _ le_rfl
    · have hDlen := runLen_le_length isDomainChar
        (List.drop (runLen isLocalChar s) s).tail
      have : ((List.drop (runLen isLocalChar s) s).tail.take
          (runLen isDomainChar (List.drop (runLen isLocalChar s) s).tail)).length
          = runLen isDomainChar (List.drop (runLen isLocalChar s) s).tail := by
        rw [List.length_take]
        omega
      intro hnil
      rw [hnil] at this
      simp only [List.length_nil] at this
      exact h3 this.symm
    · exact runLen_take_all isDomainChar _ _ le_rfl
    · have hTlen := runLen_le_length isTldChar
        (List.drop (runLen isDomainChar (List.drop (runLen isLocalChar s) s).tail)
          (List.drop (runLen isLocalChar s) s).tail).tail
      have : (((List.drop (runLen isDomainChar (List.drop (runLen isLocalChar s) s).tail)
          (List.drop (runLen isLocalChar s) s).tail).tail).take
          (runLen isTldChar
            (List.drop (runLen isDomainChar (List.drop (runLen isLocalChar s) s).tail)
              (List.drop (runLen isLocalChar s) s).tail).tail)).length
          = runLen isTldChar
            (List.drop (runLen isDomainChar (List.drop (runLen isLocalChar s) s).tail)
              (List.drop (runLen isLocalChar s) s).tail).tail := by
        rw [List.length_take]
        omega
      intro hnil
      rw [hnil] at this
      simp only [List.length_nil] at this
      exact h5 this.symm
    · exact runLen_take_all isTldChar _ _ le_rfl

theorem matchEmail_decomp_isSome (s : List Char) (hdc : EmailDecomp s) :
    (matchEmail s).isSome = true := by
  obtain ⟨l₀, d₀, t₀, rest, heq, hl₀, hlall, hd₀, hdall, ht₀, htall⟩ := hdc
  have heq' : s = l₀ ++ '@' :: (d₀ ++ '.' :: (t₀ ++ rest)) := by
    rw [heq]; simp
  have hL : runLen isLocalChar s = l₀.length := by
    rw [heq']
    exact runLen_stopped isLocalChar l₀ '@' _ hlall (by decide)
  have hdropL : List.drop l₀.length s = '@' :: (d₀ ++ '.' :: (t₀ ++ rest)) := by
    rw [heq']
    exact List.drop_left l₀ _
  have hD : runLen isDomainChar (d₀ ++ '.' :: (t₀ ++ rest)) = d₀.length :=
    runLen_stopped isDomainChar d₀ '.' _ hdall (by decide)
  have hdropD : List.drop d₀.length (d₀ ++ '.' :: (t₀ ++ rest)) = '.' :: (t₀ ++ rest) :=
    List.drop_left d₀ _
  have hT : runLen isTldChar (t₀ ++ rest) = t₀.length + runLen isTldChar rest :=
    runLen_append_all isTldChar t₀ rest htall
  have hL0 : l₀.length ≠ 0 := by simpa using hl₀
  have hD0 : d₀.length ≠ 0 := by simpa using hd₀
  have hT0 : t₀.length + runLen isTldChar rest ≠ 0 := by
    have ht0 : t₀.length ≠ 0 := by simpa using ht₀
    omega
  simp [matchEmail, hL, hdropL, hD, hdropD, hT, hL0, hD0, hT0]

/-- The text matched by the phone pattern: `\d{3}[-.]?\d{3}[-.]?\d{4}`. -/
def PhoneShape (P : List Char) : Prop :=
  ∃ g1 s1 g2 s2 g3, P = g1 ++ s1 ++ g2 ++ s2 ++ g3 ∧
    g1.length = 3 ∧ (∀ c ∈ g1, c.isDigit = true) ∧ SepOpt s1 ∧
    g2.length = 3 ∧ (∀ c ∈ g2, c.isDigit = true) ∧ SepOpt s2 ∧
    g3.length = 4 ∧ (∀ c ∈ g3, c.isDigit = true)

/-- A phone match at the start of `s` in scan context `prevW`: the leading
`\b` forces a non-word context, the matched shape, and the trailing `\b`. -/
def PhoneDecomp (prevW : Bool) (s : List Char) : Prop :=
  prevW = false ∧ ∃ P rest, s = P ++ rest ∧ PhoneShape P ∧ bOk rest = true

theorem matchPhone_some_decomp (prevW : Bool) (s : List Char) (n : Nat)
    (h : matchPhone prevW s = some n) :
    prevW = false ∧
      ∃ P rest, s = P ++ rest ∧ PhoneShape P ∧ bOk rest = true ∧ P.length = n := by
  unfold matchPhone at h
  by_cases hp : prevW = true
  · rw [hp] at h; simp at h
  · have hp' : prevW = false := by simpa using hp
    rw [hp'] at h
    simp only [Bool.false_eq_true, if_false] at h
    refine ⟨hp', ?_⟩
    cases h3 : takeDigits 3 s with
    | none => rw [h3] at h; simp at h
    | some g1p =>
      obtain ⟨d1, r1⟩ := g1p
      rw [h3] at h
      simp only [Option.some_bind] at h
      obtain ⟨hs1, hlen1, hdig1⟩ := takeDigits_some 3 s d1 r1 h3
      cases h4 : takeDigits 3 (sepSkip r1).2 with
      | none => rw [h4] at h; simp at h
      | some g2p =>
        obtain ⟨d2, r2⟩ := g2p
        rw [h4] at h
        simp only [Option.some_bind] at h
        obtain ⟨hs2, hlen2, hdig2⟩ := takeDigits_some 3 (sepSkip r1).2 d2 r2 h4
        cases h5 : takeDigits 4 (sepSkip r2).2 with
        | none => rw [h5] at h; simp at h
        | some g3p =>
          obtain ⟨d3, r3⟩ := g3p
          rw [h5] at h
          simp only [Option.some_bind] at h
          obtain ⟨hs3, hlen3, hdig3⟩ := takeDigits_some 4 (sepSkip r2).2 d3 r3 h5
          by_cases hb : bOk r3 = true
          · rw [if_pos hb] at h
            simp only [Option.some.injEq] at h
            refine ⟨d1 ++ (sepSkip r1).1 ++ d2 ++ (sepSkip r2).1 ++ d3, r3, ?_, ?_, hb, ?_⟩
            · have key : s = d1 ++ ((sepSkip r1).1 ++ (d2 ++ ((sepSkip r2).1 ++ (d3 ++ r3)))) := by
                conv_lhs => rw [hs1]
                conv_lhs => rw [sepSkip_eq r1]
                conv_lhs => rw [hs2]
                conv_lhs => rw [sepSkip_eq r2]
                conv_lhs => rw [hs3]
              rw [key]
              simp
            · exact ⟨d1, (sepSkip r1).1, d2, (sepSkip r2).1, d3, rfl, hlen1, hdig1,
                sepSkip_sepOpt r1, hlen2, hdig2, sepSkip_sepOpt r2, hlen3, hdig3⟩
            · simp only [List.length_append, hlen1, hlen2, hlen3]
              omega
          · rw [if_neg hb] at h
            simp at h

theorem matchPhone_decomp_isSome (prevW : Bool) (s : List Char)
    (hdc : PhoneDecomp prevW s) : (matchPhone prevW s).isSome = true := by
  obtain ⟨hp, P, rest, heq, ⟨g1, s1, g2, s2, g3, hP, hlen1, hdig1, hsep1, hlen2,
    hdig2, hsep2, hlen3, hdig3⟩, hb⟩ := hdc
  subst hp
  subst hP
  have hg2ne : g2 ≠ [] := by
    intro hnil; rw [hnil] at hlen2; simp at hlen2
  have hg3ne : g3 ≠ [] := by
    intro hnil; rw [hnil] at hlen3; simp at hlen3
  obtain ⟨c2, g2t, rfl⟩ := List.exists_cons_of_ne_nil hg2ne
  obtain ⟨c3, g3t, rfl⟩ := List.exists_cons_of_ne_nil hg3ne
  have heq' : s = g1 ++ (s1 ++ ((c2 :: g2t) ++ (s2 ++ ((c3 :: g3t) ++ rest)))) := by
    rw [heq]; simp
  have ht1 : takeDigits 3 (g1 ++ (s1 ++ ((c2 :: g2t) ++ (s2 ++ ((c3 :: g3t) ++ rest)))))
      = some (g1, s1 ++ ((c2 :: g2t) ++ (s2 ++ ((c3 :: g3t) ++ rest)))) := by
    rw [← hlen1]
    exact takeDigits_complete g1 _ hdig1
  have hsk1 : sepSkip (s1 ++ ((c2 :: g2t) ++ (s2 ++ ((c3 :: g3t) ++ rest))))
      = (s1, (c2 :: g2t) ++ (s2 ++ ((c3 :: g3t) ++ rest))) := by
    apply sepSkip_complete _ _ hsep1
    rintro - c t hct
    have hcc : c2 = c := by
      simpa using congrArg (fun l => l.head?) hct
    rw [← hcc]
    exact isSepChar_not_digit c2 (hdig2 c2 (by simp))
  have ht2 : takeDigits 3 ((c2 :: g2t) ++ (s2 ++ ((c3 :: g3t) ++ rest)))
      = some (c2 :: g2t, s2 ++ ((c3 :: g3t) ++ rest)) := by
    rw [← hlen2]
    exact takeDigits_complete (c2 :: g2t) _ hdig2
  have hsk2 : sepSkip (s2 ++ ((c3 :: g3t) ++ rest))
      = (s2, (c3 :: g3t) ++ rest) := by
    apply sepSkip_complete _ _ hsep2
    rintro - c t hct
    have hcc : c3 = c := by
      simpa using congrArg (fun l => l.head?) hct
    rw [← hcc]
    exact isSepChar_not_digit c3 (hdig3 c3 (by simp))
  have ht3 : takeDigits 4 ((c3 :: g3t) ++ rest) = some (c3 :: g3t, rest) := by
    rw [← hlen3]
    exact takeDigits_complete (c3 :: g3t) _ hdig3
  rw [heq']
  unfold matchPhone
  rw [if_neg (by simp)]
  rw [ht1]
  simp only [Option.some_bind]
  rw [hsk1, ht2]
  simp only [Option.some_bind]
  rw [hsk2, ht3]
  simp only [Option.some_bind]
  rw [if_pos hb]
  rfl

theorem drop_length_add (l₁ l₂ : List Char) (k : Nat) :
    List.drop (l₁.length + k) (l₁ ++ l₂) = List.drop k l₂ := by
  induction l₁ with
  | nil => simp
  | cons a t ih =>
    have hlen : (a :: t).length + k = (t.length + k) + 1 := by
      simp
      omega
    rw [hlen]
    simp only [List.cons_append, List.drop_succ_cons]
    exact ih

theorem drop_eq_cons_of_get? (l : List Char) (n : Nat) (c : Char)
    (h : l.get? n = some c) : List.drop n l = c :: List.drop (n + 1) l := by
  induction l generalizing n with
  | nil => simp at h
  | cons a t ih =>
    cases n with
    | zero =>
      simp only [List.get?_cons_zero, Option.some.injEq] at h
      rw [h]
      simp
    | succ m =>
      simp only [List.get?_cons_succ] at h
      simp only [List.drop_succ_cons]
      exact ih m h

theorem findSplit_some (r2 : List Char) (J d t : Nat)
    (h : findSplit r2 J = some (d, t)) :
    1 ≤ d ∧ d ≤ J ∧ r2.get? d = some '.' ∧
      t = runLen isAsciiLetter (List.drop (d + 1) r2) ∧ 2 ≤ t := by
  induction J with
  | zero => simp [findSplit] at h
  | succ j ih =>
    unfold findSplit at h
    split_ifs at h with hc
    · simp only [Option.some.injEq, Prod.mk.injEq] at h
      obtain ⟨h1, h2⟩ := h
      subst h1
      subst h2
      exact ⟨by omega, le_refl _, hc.1, rfl, hc.2⟩
    · obtain ⟨h1, h2, h3, h4, h5⟩ := ih h
      exact ⟨h1, by omega, h3, h4, h5⟩

theorem findSplit_complete (r2 : List Char) (J : Nat)
    (hex : ∃ j, 1 ≤ j ∧ j ≤ J ∧ r2.get? j = some '.' ∧
      2 ≤ runLen isAsciiLetter (List.drop (j + 1) r2)) :
    ∃ dt, findSplit r2 J = some dt := by
  induction J with
  | zero =>
    obtain ⟨j, h1, h2, -⟩ := hex
    omega
  | succ jj ih =>
    unfold findSplit
    split_ifs with hc
    · exact ⟨_, rfl⟩
    · apply ih
      obtain ⟨j, h1, h2, h3, h4⟩ := hex
      refine ⟨j, h1, ?_, h3, h4⟩
      rcases Nat.lt_or_ge j (jj + 1) with hlt | hge
      · omega
      · have hj : j = jj + 1 := by omega
        subst hj
        exact absurd ⟨h3, h4⟩ hc

/-- A string starting with a full match of the `guardrail_pii` email pattern:
`local+ @ domain+ . letter{2,}` followed by anything. -/
def EmailDecompPR (s : List Char) : Prop :=
  ∃ l₀ d₀ t₀ rest, s = (l₀ ++ '@' :: (d₀ ++ '.' :: t₀)) ++ rest ∧
    l₀ ≠ [] ∧ (∀ c ∈ l₀, isLocalPR c = true) ∧
    d₀ ≠ [] ∧ (∀ c ∈ d₀, isDomainPR c = true) ∧
    2 ≤ t₀.length ∧ (∀ c ∈ t₀, isAsciiLetter c = true)

theorem matchEmailPR_some_decomp (s : List Char) (n : Nat)
    (h : matchEmailPR s = some n) : EmailDecompPR s := by
  simp only [matchEmailPR] at h
  split_ifs at h with h1 h2
  all_goals try (exact Option.noConfusion h)
  split at h
  case _ dt hfs =>
    obtain ⟨hd1, hdJ, hdot, hth, ht2⟩ :=
      findSplit_some (List.drop (runLen isLocalPR s) s).tail _ dt.1 dt.2
        (by rw [← hfs])
    set R2 := (List.drop (runLen isLocalPR s) s).tail with hR2
    have hJle := runLen_le_length isDomainPR R2
    have hTle := runLen_le_length isAsciiLetter (List.drop (dt.1 + 1) R2)
    refine ⟨s.take (runLen isLocalPR s), R2.take dt.1,
      (List.drop (dt.1 + 1) R2).take dt.2,
      (List.drop (dt.1 + 1) R2).drop dt.2, ?_, ?_, ?_, ?_, ?_, ?_, ?_⟩
    · have e1 : s.take (runLen isLocalPR s) ++ List.drop (runLen isLocalPR s) s = s :=
        List.take_append_drop _ s
      have e2 : '@' :: R2 = List.drop (runLen isLocalPR s) s :=
        List.cons_head?_tail h2
      have e3 : R2.take dt.1 ++ List.drop dt.1 R2 = R2 := List.take_append_drop _ R2
      have e4 : List.drop dt.1 R2 = '.' :: List.drop (dt.1 + 1) R2 :=
        drop_eq_cons_of_get? R2 dt.1 '.' hdot
      have e5 : (List.drop (dt.1 + 1) R2).take dt.2 ++ (List.drop (dt.1 + 1) R2).drop dt.2
          = List.drop (dt.1 + 1) R2 := List.take_append_drop _ _
      conv_lhs => rw [← e1, ← e2, ← e3, e4, ← e5]
      simp
    · have hlen : (s.take (runLen isLocalPR s)).length = runLen isLocalPR s := by
        rw [List.length_take]
        have := runLen_le_length isLocalPR s
        omega
      intro hnil
      rw [hnil] at hlen
      simp only [List.length_nil] at hlen
      exact h1 hlen.symm
    · exact runLen_take_all isLocalPR s _ le_rfl
    · have hlen : (R2.take dt.1).length = dt.1 := by
        rw [List.length_take]
        omega
      intro hnil
      rw [hnil] at hlen
      simp only [List.length_nil] at hlen
      omega
    · exact runLen_take_all isDomainPR R2 dt.1 hdJ
    · have hlen : ((List.drop (dt.1 + 1) R2).take dt.2).length = dt.2 := by
        rw [List.length_take]
        omega
      rw [hlen]
      exact ht2
    · rw [hth]
      exact runLen_take_all isAsciiLetter _ _ le_rfl
  case _ hfs => exact Option.noConfusion h

theorem matchEmailPR_decomp_isSome (s : List Char) (hdc : EmailDecompPR s) :
    (matchEmailPR s).isSome = true := by
  obtain ⟨l₀, d₀, t₀, rest, heq, hl₀, hlall, hd₀, hdall, ht₀, htall⟩ := hdc
  have heq' : s = l₀ ++ '@' :: (d₀ ++ '.' :: (t₀ ++ rest)) := by
    rw [heq]; simp
  have hL : runLen isLocalPR s = l₀.length := by
    rw [heq']
    exact runLen_stopped isLocalPR l₀ '@' _ hlall (by decide)
  have hdropL : List.drop l₀.length s = '@' :: (d₀ ++ '.' :: (t₀ ++ rest)) := by
    rw [heq']
    exact List.drop_left l₀ _
  have hL0 : l₀.length ≠ 0 := by simpa using hl₀
  have hd₀len : d₀.length ≠ 0 := by simpa using hd₀
  have hget : (d₀ ++ '.' :: (t₀ ++ rest)).get? d₀.length = some '.' := by
    rw [List.get?_append_right (le_refl _)]
    simp
  have hdrop2 : List.drop (d₀.length + 1) (d₀ ++ '.' :: (t₀ ++ rest)) = t₀ ++ rest := by
    have hda := drop_length_add d₀ ('.' :: (t₀ ++ rest)) 1
    simpa using hda
  have hletters : 2 ≤ runLen isAsciiLetter
      (List.drop (d₀.length + 1) (d₀ ++ '.' :: (t₀ ++ rest))) := by
    rw [hdrop2, runLen_append_all isAsciiLetter t₀ rest htall]
    omega
  have hJ : d₀.length ≤ runLen isDomainPR (d₀ ++ '.' :: (t₀ ++ rest)) := by
    rw [runLen_append_all isDomainPR d₀ _ hdall]
    omega
  obtain ⟨dt, hdt⟩ := findSplit_complete (d₀ ++ '.' :: (t₀ ++ rest))
    (runLen isDomainPR (d₀ ++ '.' :: (t₀ ++ rest)))
    ⟨d₀.length, by omega, hJ, hget, hletters⟩
  simp [matchEmailPR, hL, hdropL, hL0, hdt]

/-! ### Structure of the substitution scans -/

theorem sentinelEmail_cons : sentinelEmail = '[' :: "REDACTED_EMAIL]".toList := by decide

theorem sentinelPhone_cons : sentinelPhone = '[' :: "REDACTED_PHONE]".toList := by decide

/-- Either the email scan replaces nothing, or the output agrees with the
input on a common prefix `a` and then opens a sentinel (`[`). -/
theorem emailSubAux_structure (fuel : Nat) (s : List Char) :
    emailSubAux fuel s = s ∨
    ∃ a t₁ t₂, s = a ++ t₁ ∧ emailSubAux fuel s = a ++ '[' :: t₂ := by
  induction fuel generalizing s with
  | zero => exact Or.inl rfl
  | succ f ih =>
    cases s with
    | nil => exact Or.inl rfl
    | cons c rest =>
      cases hm : matchEmail (c :: rest) with
      | some n =>
        refine Or.inr ⟨[], c :: rest,
          "REDACTED_EMAIL]".toList ++ emailSubAux f (List.drop (n - 1) rest), rfl, ?_⟩
        simp [emailSubAux, hm, sentinelEmail_cons]
      | none =>
        rcases ih rest with heq | ⟨a, t₁, t₂, ha, hout⟩
        · exact Or.inl (by simp [emailSubAux, hm, heq])
        · exact Or.inr ⟨c :: a, t₁, t₂, by rw [ha]; rfl,
            by simp [emailSubAux, hm, hout]⟩

theorem emailSubPRAux_structure (fuel : Nat) (s : List Char) :
    emailSubPRAux fuel s = s ∨
    ∃ a t₁ t₂, s = a ++ t₁ ∧ emailSubPRAux fuel s = a ++ '[' :: t₂ := by
  induction fuel generalizing s with
  | zero => exact Or.inl rfl
  | succ f ih =>
    cases s with
    | nil => exact Or.inl rfl
    | cons c rest =>
      cases hm : matchEmailPR (c :: rest) with
      | some n =>
        refine Or.inr ⟨[], c :: rest,
          "REDACTED_EMAIL]".toList ++ emailSubPRAux f (List.drop (n - 1) rest), rfl, ?_⟩
        simp [emailSubPRAux, hm, sentinelEmail_cons]
      | none =>
        rcases ih rest with heq | ⟨a, t₁, t₂, ha, hout⟩
        · exact Or.inl (by simp [emailSubPRAux, hm, heq])
        · exact Or.inr ⟨c :: a, t₁, t₂, by rw [ha]; rfl,
            by simp [emailSubPRAux, hm, hout]⟩

/-- Scan context (word-ness of the previous character) after reading `l`. -/
def wordCtx (prevW : Bool) : List Char → Bool
  | [] => prevW
  | c :: t => wordCtx (isWordChar c) t

theorem wordCtx_append_single (b : Bool) (u : List Char) (x : Char) :
    wordCtx b (u ++ [x]) = isWordChar x := by
  induction u generalizing b with
  | nil => rfl
  | cons c t ih => exact ih (isWordChar c)

/-- Like `emailSubAux_structure`, but the phone scan additionally guarantees
that the context right before a replaced match is non-word (the leading
`\b`). -/
theorem phoneSubAux_structure (fuel : Nat) (prevW : Bool) (s : List Char) :
    phoneSubAux fuel prevW s = s ∨
    ∃ a t₁ t₂, s = a ++ t₁ ∧ phoneSubAux fuel prevW s = a ++ '[' :: t₂ ∧
      wordCtx prevW a = false := by
  induction fuel generalizing prevW s with
  | zero => exact Or.inl rfl
  | succ f ih =>
    cases s with
    | nil => exact Or.inl rfl
    | cons c rest =>
      cases hm : matchPhone prevW (c :: rest) with
      | some n =>
        have hp : prevW = false := (matchPhone_some_decomp prevW (c :: rest) n hm).1
        refine Or.inr ⟨[], c :: rest,
          "REDACTED_PHONE]".toList ++ phoneSubAux f true (List.drop (n - 1) rest),
          rfl, ?_, hp⟩
        simp [phoneSubAux, hm, sentinelPhone_cons]
      | none =>
        rcases ih (isWordChar c) rest with heq | ⟨a, t₁, t₂, ha, hout, hctx⟩
        · exact Or.inl (by simp [phoneSubAux, hm, heq])
        · exact Or.inr ⟨c :: a, t₁, t₂, by rw [ha]; rfl,
            by simp [phoneSubAux, hm, hout], hctx⟩

/-! ### Clean strings: no match at any position -/

/-- No match of `m` at any suffix position. -/
def CleanFWith (m : List Char → Option Nat) : List Char → Prop
  | [] => True
  | c :: t => m (c :: t) = none ∧ CleanFWith m t

theorem CleanFWith_cons (m : List Char → Option Nat) (c : Char) (t : List Char) :
    CleanFWith m (c :: t) ↔ (m (c :: t) = none ∧ CleanFWith m t) := Iff.rfl

/-- No phone match at any position, threading the `\b` scan context. -/
def PhoneCleanF (prevW : Bool) : List Char → Prop
  | [] => True
  | c :: t => matchPhone prevW (c :: t) = none ∧ PhoneCleanF (isWordChar c) t

theorem PhoneCleanF_cons (prevW : Bool) (c : Char) (t : List Char) :
    PhoneCleanF prevW (c :: t) ↔
      (matchPhone prevW (c :: t) = none ∧ PhoneCleanF (isWordChar c) t) := Iff.rfl

theorem cleanF_suffix (m : List Char → Option Nat) (u v : List Char)
    (h : CleanFWith m (u ++ v)) : CleanFWith m v := by
  induction u with
  | nil => exact h
  | cons c u' ih => exact ih ((CleanFWith_cons m c (u' ++ v)).mp h).2

theorem cleanF_drop (m : List Char → Option Nat) (s : List Char) (n : Nat)
    (h : CleanFWith m s) : CleanFWith m (List.drop n s) :=
  cleanF_suffix m (s.take n) _ (by rw [List.take_append_drop]; exact h)

theorem cleanF_append (m : List Char → Option Nat) (u X : List Char)
    (h : ∀ w v, u = w ++ v → v ≠ [] → m (v ++ X) = none)
    (hX : CleanFWith m X) : CleanFWith m (u ++ X) := by
  induction u with
  | nil => exact hX
  | cons c u' ih =>
    rw [show (c :: u') ++ X = c :: (u' ++ X) from rfl, CleanFWith_cons]
    refine ⟨h [] (c :: u') rfl (by simp), ?_⟩
    exact ih (fun w v hw hv => h (c :: w) v (by rw [hw]; rfl) hv)

/-- The wall: every nonempty suffix of a sentinel-shaped block (ends in `]`,
contains no `@`) fails the email matcher regardless of what follows. -/
theorem wall_suffixes (m : List Char → Option Nat) (q : Char → Bool)
    (hwall : ∀ v t, (∃ b ∈ v, q b = false) → '@' ∉ v → m (v ++ t) = none)
    (sent : List Char) (hat : '@' ∉ sent) (hlast : sent.reverse.head? = some ']')
    (hq : q ']' = false) :
    ∀ X w v, sent = w ++ v → v ≠ [] → m (v ++ X) = none := by
  intro X w v hwv hv
  obtain ⟨y, r, hyr⟩ := List.exists_cons_of_ne_nil
    (show v.reverse ≠ [] by simpa using hv)
  have hrev : sent.reverse = y :: (r ++ w.reverse) := by
    rw [hwv]; simp [hyr]
  rw [hrev] at hlast
  simp only [List.head?_cons, Option.some.injEq] at hlast
  have hmem : ']' ∈ v := by
    rw [← hlast, ← List.mem_reverse, hyr]
    simp
  refine hwall v X ⟨']', hmem, hq⟩ ?_
  intro hcontra
  exact hat (hwv ▸ List.mem_append_right w hcontra)

/-! ### Transport: a fresh match in the scan output yields a match in the
input (replacements only shrink the match-set) -/

theorem emailDecomp_P_no_bracket (l₀ d₀ t₀ : List Char)
    (hlall : ∀ c ∈ l₀, isLocalChar c = true)
    (hdall : ∀ c ∈ d₀, isDomainChar c = true)
    (htall : ∀ c ∈ t₀, isTldChar c = true) :
    '[' ∉ l₀ ++ '@' :: (d₀ ++ '.' :: t₀) := by
  intro hmem
  rcases List.mem_append.mp hmem with hm1 | hm2
  · exact absurd (hlall _ hm1) (by decide)
  · rcases List.mem_cons.mp hm2 with heq1 | hm3
    · exact absurd heq1 (by decide)
    · rcases List.mem_append.mp hm3 with hm4 | hm5
      · exact absurd (hdall _ hm4) (by decide)
      · rcases List.mem_cons.mp hm5 with heq2 | hm6
        · exact absurd heq2 (by decide)
        · exact absurd (htall _ hm6) (by decide)

theorem emailDecompPR_P_no_bracket (l₀ d₀ t₀ : List Char)
    (hlall : ∀ c ∈ l₀, isLocalPR c = true)
    (hdall : ∀ c ∈ d₀, isDomainPR c = true)
    (htall : ∀ c ∈ t₀, isAsciiLetter c = true) :
    '[' ∉ l₀ ++ '@' :: (d₀ ++ '.' :: t₀) := by
  intro hmem
  rcases List.mem_append.mp hmem with hm1 | hm2
  · exact absurd (hlall _ hm1) (by decide)
  · rcases List.mem_cons.mp hm2 with heq1 | hm3
    · exact absurd heq1 (by decide)
    · rcases List.mem_append.mp hm3 with hm4 | hm5
      · exact absurd (hdall _ hm4) (by decide)
      · rcases List.mem_cons.mp hm5 with heq2 | hm6
        · exact absurd heq2 (by decide)
        · exact absurd (htall _ hm6) (by decide)

/-- A match `P` found in `c :: (a ++ '[' :: t₂)` (the scan output) cannot
contain the `[`; so either it is exactly the shared prefix `c :: a`, or it
lies strictly inside it and carries its following boundary character over to
the input `c :: rest`. -/
theorem prefix_transport (c : Char) (rest a t₁ t₂ P rest' : List Char)
    (ha : rest = a ++ t₁)
    (heqP : c :: (a ++ '[' :: t₂) = P ++ rest')
    (hbr : '[' ∉ P) :
    P = c :: a ∨
      ∃ x r₃ a₃, rest' = x :: r₃ ∧ c :: rest = P ++ (x :: a₃) := by
  have heqP' : P ++ rest' = (c :: a) ++ ('[' :: t₂) := by
    rw [← heqP]; rfl
  rcases List.append_eq_append_iff.mp heqP' with ⟨a', h1, h2⟩ | ⟨c', h1, h2⟩
  · cases a' with
    | nil =>
      left
      simpa using h1.symm
    | cons x a'' =>
      right
      refine ⟨x, a'' ++ '[' :: t₂, a'' ++ t₁, h2, ?_⟩
      rw [ha, show c :: (a ++ t₁) = (c :: a) ++ t₁ from rfl, h1]
      simp
  · cases c' with
    | nil =>
      left
      simpa using h1
    | cons x c'' =>
      exfalso
      have hx : '[' = x := by
        have hh := congrArg (fun l => l.head?) h2
        simpa using hh
      apply hbr
      rw [h1, ← hx]
      simp

theorem matchEmail_transport (c : Char) (rest : List Char) (fuel : Nat)
    (hnone : matchEmail (c :: rest) = none) :
    matchEmail (c :: emailSubAux fuel rest) = none := by
  rcases emailSubAux_structure fuel rest with hT | ⟨a, t₁, t₂, ha, hout⟩
  · rw [hT]; exact hnone
  · rw [hout]
    cases hmm : matchEmail (c :: (a ++ '[' :: t₂)) with
    | none => rfl
    | some n =>
      exfalso
      obtain ⟨l₀, d₀, t₀, rest', heqP, hl₀, hlall, hd₀, hdall, ht₀, htall⟩ :=
        matchEmail_some_decomp _ n hmm
      have hbr := emailDecomp_P_no_bracket l₀ d₀ t₀ hlall hdall htall
      rcases prefix_transport c rest a t₁ t₂ _ rest' ha heqP hbr with
        hP | ⟨x, r₃, a₃, hr, hcr⟩
      · have hdc : EmailDecomp (c :: rest) :=
          ⟨l₀, d₀, t₀, t₁,
            by rw [ha, show c :: (a ++ t₁) = (c :: a) ++ t₁ from rfl, ← hP],
            hl₀, hlall, hd₀, hdall, ht₀, htall⟩
        have hsome := matchEmail_decomp_isSome _ hdc
        rw [hnone] at hsome
        simp at hsome
      · have hdc : EmailDecomp (c :: rest) :=
          ⟨l₀, d₀, t₀, x :: a₃, hcr, hl₀, hlall, hd₀, hdall, ht₀, htall⟩
        have hsome := matchEmail_decomp_isSome _ hdc
        rw [hnone] at hsome
        simp at hsome

theorem matchEmailPR_transport (c : Char) (rest : List Char) (fuel : Nat)
    (hnone : matchEmailPR (c :: rest) = none) :
    matchEmailPR (c :: emailSubPRAux fuel rest) = none := by
  rcases emailSubPRAux_structure fuel rest with hT | ⟨a, t₁, t₂, ha, hout⟩
  · rw [hT]; exact hnone
  · rw [hout]
    cases hmm : matchEmailPR (c :: (a ++ '[' :: t₂)) with
    | none => rfl
    | some n =>
      exfalso
      obtain ⟨l₀, d₀, t₀, rest', heqP, hl₀, hlall, hd₀, hdall, ht₀, htall⟩ :=
        matchEmailPR_some_decomp _ n hmm
      have hbr := emailDecompPR_P_no_bracket l₀ d₀ t₀ hlall hdall htall
      rcases prefix_transport c rest a t₁ t₂ _ rest' ha heqP hbr with
        hP | ⟨x, r₃, a₃, hr, hcr⟩
      · have hdc : EmailDecompPR (c :: rest) :=
          ⟨l₀, d₀, t₀, t₁,
            by rw [ha, show c :: (a ++ t₁) = (c :: a) ++ t₁ from rfl, ← hP],
            hl₀, hlall, hd₀, hdall, ht₀, htall⟩
        have hsome := matchEmailPR_decomp_isSome _ hdc
        rw [hnone] at hsome
        simp at hsome
      · have hdc : EmailDecompPR (c :: rest) :=
          ⟨l₀, d₀, t₀, x :: a₃, hcr, hl₀, hlall, hd₀, hdall, ht₀, htall⟩
        have hsome := matchEmailPR_decomp_isSome _ hdc
        rw [hnone] at hsome
        simp at hsome

theorem matchEmail_transport_phone (b : Bool) (c : Char) (rest : List Char) (fuel : Nat)
    (hnone : matchEmail (c :: rest) = none) :
    matchEmail (c :: phoneSubAux fuel b rest) = none := by
  rcases phoneSubAux_structure fuel b rest with hT | ⟨a, t₁, t₂, ha, hout, -⟩
  · rw [hT]; exact hnone
  · rw [hout]
    cases hmm : matchEmail (c :: (a ++ '[' :: t₂)) with
    | none => rfl
    | some n =>
      exfalso
      obtain ⟨l₀, d₀, t₀, rest', heqP, hl₀, hlall, hd₀, hdall, ht₀, htall⟩ :=
        matchEmail_some_decomp _ n hmm
      have hbr := emailDecomp_P_no_bracket l₀ d₀ t₀ hlall hdall htall
      rcases prefix_transport c rest a t₁ t₂ _ rest' ha heqP hbr with
        hP | ⟨x, r₃, a₃, hr, hcr⟩
      · have hdc : EmailDecomp (c :: rest) :=
          ⟨l₀, d₀, t₀, t₁,
            by rw [ha, show c :: (a ++ t₁) = (c :: a) ++ t₁ from rfl, ← hP],
            hl₀, hlall, hd₀, hdall, ht₀, htall⟩
        have hsome := matchEmail_decomp_isSome _ hdc
        rw [hnone] at hsome
        simp at hsome
      · have hdc : EmailDecomp (c :: rest) :=
          ⟨l₀, d₀, t₀, x :: a₃, hcr, hl₀, hlall, hd₀, hdall, ht₀, htall⟩
        have hsome := matchEmail_decomp_isSome _ hdc
        rw [hnone] at hsome
        simp at hsome

theorem matchPhone_transport (prevW : Bool) (c : Char) (rest : List Char) (fuel : Nat)
    (hnone : matchPhone prevW (c :: rest) = none) :
    matchPhone prevW (c :: phoneSubAux fuel (isWordChar c) rest) = none := by
  rcases phoneSubAux_structure fuel (isWordChar c) rest with
    hT | ⟨a, t₁, t₂, ha, hout, hctx⟩
  · rw [hT]; exact hnone
  · rw [hout]
    cases hmm : matchPhone prevW (c :: (a ++ '[' :: t₂)) with
    | none => rfl
    | some n =>
      exfalso
      obtain ⟨hp, P, rest', heqP, hshape, hbok, -⟩ := matchPhone_some_decomp _ _ n hmm
      obtain ⟨g1, s1, g2, s2, g3, hP, hlen1, hdig1, hsep1, hlen2, hdig2, hsep2,
        hlen3, hdig3⟩ := hshape
      have hbr : '[' ∉ P := by
        rw [hP]
        intro hmem
        have hsepmem : ∀ S : List Char, SepOpt S → '[' ∉ S := by
          intro S hS hmemS
          rcases hS with rfl | ⟨y, rfl, hy⟩
          · simp at hmemS
          · simp at hmemS
            rw [← hmemS] at hy
            exact absurd hy (by decide)
        rcases List.mem_append.mp hmem with hr1 | h5
        · rcases List.mem_append.mp hr1 with hr2 | h4
          · rcases List.mem_append.mp hr2 with hr3 | h3
            · rcases List.mem_append.mp hr3 with h1 | h2
              · exact absurd (hdig1 _ h1) (by decide)
              · exact hsepmem s1 hsep1 h2
            · exact absurd (hdig2 _ h3) (by decide)
          · exact hsepmem s2 hsep2 h4
        · exact absurd (hdig3 _ h5) (by decide)
      have hg3ne : g3 ≠ [] := by
        intro hnil; rw [hnil] at hlen3; simp at hlen3
      obtain ⟨x0, r0, hxr⟩ := List.exists_cons_of_ne_nil
        (show g3.reverse ≠ [] by simpa using hg3ne)
      have hg3eq : g3 = r0.reverse ++ [x0] := by
        have hrr := congrArg List.reverse hxr
        simpa using hrr
      have hx0dig : x0.isDigit = true := hdig3 x0 (by rw [hg3eq]; simp)
      have hPlast : ∀ bb, wordCtx bb P = true := by
        intro bb
        rw [hP, hg3eq]
        rw [show g1 ++ s1 ++ g2 ++ s2 ++ (r0.reverse ++ [x0])
            = (g1 ++ s1 ++ g2 ++ s2 ++ r0.reverse) ++ [x0] by simp]
        rw [wordCtx_append_single]
        exact isWordChar_of_digit x0 hx0dig
      rcases prefix_transport c rest a t₁ t₂ P rest' ha heqP hbr with
        hPa | ⟨x, r₃, a₃, hr, hcr⟩
      · have h1 : wordCtx prevW P = true := hPlast prevW
        rw [hPa] at h1
        rw [show wordCtx prevW (c :: a) = wordCtx (isWordChar c) a from rfl, hctx] at h1
        exact Bool.noConfusion h1
      · have hxw : isWordChar x = false := by
          rw [hr] at hbok
          simpa [bOk] using hbok
        have hdc : PhoneDecomp prevW (c :: rest) :=
          ⟨hp, P, x :: a₃, hcr,
            ⟨g1, s1, g2, s2, g3, hP, hlen1, hdig1, hsep1, hlen2, hdig2, hsep2,
              hlen3, hdig3⟩,
            by simp [bOk, hxw]⟩
        have hsome := matchPhone_decomp_isSome _ _ hdc
        rw [hnone] at hsome
        simp at hsome

/-! ### The scans leave no matches behind -/

theorem matchPhone_some_pos (prevW : Bool) (s : List Char) (n : Nat)
    (h : matchPhone prevW s = some n) : 1 ≤ n := by
  obtain ⟨-, P, rest, -, ⟨g1, s1, g2, s2, g3, hP, hlen1, -, -, -, -, -, -, -⟩, -, hlen⟩ :=
    matchPhone_some_decomp prevW s n h
  rw [hP] at hlen
  simp only [List.length_append] at hlen
  omega

theorem matchPhone_some_bOk (prevW : Bool) (s : List Char) (n : Nat)
    (h : matchPhone prevW s = some n) : bOk (List.drop n s) = true := by
  obtain ⟨-, P, rest, heq, -, hbok, hlen⟩ := matchPhone_some_decomp prevW s n h
  rw [heq, ← hlen, List.drop_left]
  exact hbok

theorem emailSubAux_clean (fuel : Nat) (s : List Char) (hf : s.length ≤ fuel) :
    CleanFWith matchEmail (emailSubAux fuel s) := by
  induction fuel generalizing s with
  | zero =>
    have hs : s = [] := List.eq_nil_of_length_eq_zero (by omega)
    subst hs
    exact trivial
  | succ f ih =>
    cases s with
    | nil => exact trivial
    | cons c rest =>
      have hrest : rest.length ≤ f := by simpa using hf
      cases hm : matchEmail (c :: rest) with
      | some n =>
        rw [show emailSubAux (f + 1) (c :: rest)
            = sentinelEmail ++ emailSubAux f (List.drop (n - 1) rest) by
          simp [emailSubAux, hm]]
        apply cleanF_append
        · exact wall_suffixes matchEmail isLocalChar matchEmail_wall sentinelEmail
            (by decide) (by decide) (by decide) _
        · apply ih
          rw [List.length_drop]
          omega
      | none =>
        rw [show emailSubAux (f + 1) (c :: rest) = c :: emailSubAux f rest by
          simp [emailSubAux, hm]]
        rw [CleanFWith_cons]
        exact ⟨matchEmail_transport c rest f hm, ih rest hrest⟩

theorem emailSubPRAux_clean (fuel : Nat) (s : List Char) (hf : s.length ≤ fuel) :
    CleanFWith matchEmailPR (emailSubPRAux fuel s) := by
  induction fuel generalizing s with
  | zero =>
    have hs : s = [] := List.eq_nil_of_length_eq_zero (by omega)
    subst hs
    exact trivial
  | succ f ih =>
    cases s with
    | nil => exact trivial
    | cons c rest =>
      have hrest : rest.length ≤ f := by simpa using hf
      cases hm : matchEmailPR (c :: rest) with
      | some n =>
        rw [show emailSubPRAux (f + 1) (c :: rest)
            = sentinelEmail ++ emailSubPRAux f (List.drop (n - 1) rest) by
          simp [emailSubPRAux, hm]]
        apply cleanF_append
        · exact wall_suffixes matchEmailPR isLocalPR matchEmailPR_wall sentinelEmail
            (by decide) (by decide) (by decide) _
        · apply ih
          rw [List.length_drop]
          omega
      | none =>
        rw [show emailSubPRAux (f + 1) (c :: rest) = c :: emailSubPRAux f rest by
          simp [emailSubPRAux, hm]]
        rw [CleanFWith_cons]
        exact ⟨matchEmailPR_transport c rest f hm, ih rest hrest⟩

theorem wordCtx_sentinelPhone (b : Bool) : wordCtx b sentinelPhone = false := by
  cases b <;> decide

theorem phoneCleanF_of_true (X : List Char) (hclean : PhoneCleanF true X)
    (hhead : X = [] ∨ ∃ x X', X = x :: X' ∧ isWordChar x = false) (b : Bool) :
    PhoneCleanF b X := by
  rcases hhead with rfl | ⟨x, X', rfl, hxw⟩
  · exact trivial
  · rw [PhoneCleanF_cons] at hclean ⊢
    refine ⟨?_, hclean.2⟩
    have hxd : x.isDigit = false := by
      cases hd : x.isDigit
      · rfl
      · rw [isWordChar_of_digit x hd] at hxw
        exact Bool.noConfusion hxw
    exact matchPhone_nondigit b x X' hxd

theorem phoneCleanF_append_nodigit (u X : List Char)
    (hu : ∀ c ∈ u, c.isDigit = false) :
    ∀ prevW : Bool, PhoneCleanF (wordCtx prevW u) X → PhoneCleanF prevW (u ++ X) := by
  induction u with
  | nil => exact fun prevW hX => hX
  | cons c u' ih =>
    intro prevW hX
    rw [show (c :: u') ++ X = c :: (u' ++ X) from rfl, PhoneCleanF_cons]
    refine ⟨matchPhone_nondigit prevW c (u' ++ X) (hu c (by simp)), ?_⟩
    exact ih (fun y hy => hu y (by simp [hy])) (isWordChar c) hX

theorem phoneSubAux_clean (fuel : Nat) (prevW : Bool) (s : List Char)
    (hf : s.length ≤ fuel) : PhoneCleanF prevW (phoneSubAux fuel prevW s) := by
  induction fuel generalizing prevW s with
  | zero =>
    have hs : s = [] := List.eq_nil_of_length_eq_zero (by omega)
    subst hs
    exact trivial
  | succ f ih =>
    cases s with
    | nil => exact trivial
    | cons c rest =>
      have hrest : rest.length ≤ f := by simpa using hf
      cases hm : matchPhone prevW (c :: rest) with
      | some n =>
        rw [show phoneSubAux (f + 1) prevW (c :: rest)
            = sentinelPhone ++ phoneSubAux f true (List.drop (n - 1) rest) by
          simp [phoneSubAux, hm]]
        have hpos := matchPhone_some_pos prevW (c :: rest) n hm
        have hbok := matchPhone_some_bOk prevW (c :: rest) n hm
        have hdropeq : List.drop n (c :: rest) = List.drop (n - 1) rest := by
          cases n with
          | zero => omega
          | succ m => simp
        rw [hdropeq] at hbok
        have hXtrue : PhoneCleanF true (phoneSubAux f true (List.drop (n - 1) rest)) := by
          apply ih
          rw [List.length_drop]
          omega
        have hheadX : phoneSubAux f true (List.drop (n - 1) rest) = [] ∨
            ∃ x X', phoneSubAux f true (List.drop (n - 1) rest) = x :: X' ∧
              isWordChar x = false := by
          rcases hds : List.drop (n - 1) rest with - | ⟨x, s'⟩
          · left
            cases f <;> rfl
          · right
            rw [hds] at hbok
            have hxw : isWordChar x = false := by
              simpa [bOk] using hbok
            cases f with
            | zero => exact ⟨x, s', rfl, hxw⟩
            | succ f' =>
              exact ⟨x, phoneSubAux f' (isWordChar x) s',
                by simp [phoneSubAux, matchPhone_prevW_true], hxw⟩
        apply phoneCleanF_append_nodigit sentinelPhone _ (by decide) prevW
        rw [wordCtx_sentinelPhone]
        exact phoneCleanF_of_true _ hXtrue hheadX false
      | none =>
        rw [show phoneSubAux (f + 1) prevW (c :: rest)
            = c :: phoneSubAux f (isWordChar c) rest by simp [phoneSubAux, hm]]
        rw [PhoneCleanF_cons]
        exact ⟨matchPhone_transport prevW c rest f hm, ih (isWordChar c) rest hrest⟩

theorem phoneSubAux_preserves_emailClean (fuel : Nat) (prevW : Bool) (s : List Char)
    (hf : s.length ≤ fuel) (hs : CleanFWith matchEmail s) :
    CleanFWith matchEmail (phoneSubAux fuel prevW s) := by
  induction fuel generalizing prevW s with
  | zero =>
    have hnil : s = [] := List.eq_nil_of_length_eq_zero (by omega)
    subst hnil
    exact trivial
  | succ f ih =>
    cases s with
    | nil => exact trivial
    | cons c rest =>
      have hrest : rest.length ≤ f := by simpa using hf
      rw [CleanFWith_cons] at hs
      cases hm : matchPhone prevW (c :: rest) with
      | some n =>
        rw [show phoneSubAux (f + 1) prevW (c :: rest)
            = sentinelPhone ++ phoneSubAux f true (List.drop (n - 1) rest) by
          simp [phoneSubAux, hm]]
        apply cleanF_append
        · exact wall_suffixes matchEmail isLocalChar matchEmail_wall sentinelPhone
            (by decide) (by decide) (by decide) _
        · apply ih true _ (by rw [List.length_drop]; omega)
          exact cleanF_drop matchEmail rest (n - 1) hs.2
      | none =>
        rw [show phoneSubAux (f + 1) prevW (c :: rest)
            = c :: phoneSubAux f (isWordChar c) rest by simp [phoneSubAux, hm]]
        rw [CleanFWith_cons]
        exact ⟨matchEmail_transport_phone (isWordChar c) c rest f hs.1,
          ih (isWordChar c) rest hrest hs.2⟩

/-! ### A clean string is a fixed point of its scan -/

theorem emailSubAux_id (fuel : Nat) (s : List Char)
    (h : CleanFWith matchEmail s) : emailSubAux fuel s = s := by
  induction fuel generalizing s with
  | zero => rfl
  | succ f ih =>
    cases s with
    | nil => rfl
    | cons c rest =>
      rw [CleanFWith_cons] at h
      simp [emailSubAux, h.1, ih rest h.2]

theorem emailSubPRAux_id (fuel : Nat) (s : List Char)
    (h : CleanFWith matchEmailPR s) : emailSubPRAux fuel s = s := by
  induction fuel generalizing s with
  | zero => rfl
  | succ f ih =>
    cases s with
    | nil => rfl
    | cons c rest =>
      rw [CleanFWith_cons] at h
      simp [emailSubPRAux, h.1, ih rest h.2]

theorem phoneSubAux_id (fuel : Nat) (prevW : Bool) (s : List Char)
    (h : PhoneCleanF prevW s) : phoneSubAux fuel prevW s = s := by
  induction fuel generalizing prevW s with
  | zero => rfl
  | succ f ih =>
    cases s with
    | nil => rfl
    | cons c rest =>
      rw [PhoneCleanF_cons] at h
      simp [phoneSubAux, h.1, ih (isWordChar c) rest h.2]

/-! ### Idempotence of `redact` -/

theorem emailSub_clean (s : List Char) : CleanFWith matchEmail (emailSub s) :=
  emailSubAux_clean s.length s le_rfl

theorem emailSubPR_clean (s : List Char) : CleanFWith matchEmailPR (emailSubPR s) :=
  emailSubPRAux_clean s.length s le_rfl

theorem redactL_emailClean (s : List Char) : CleanFWith matchEmail (redactL s) :=
  phoneSubAux_preserves_emailClean (emailSub s).length false (emailSub s) le_rfl
    (emailSub_clean s)

theorem redactL_phoneClean (s : List Char) : PhoneCleanF false (redactL s) :=
  phoneSubAux_clean (emailSub s).length false (emailSub s) le_rfl

theorem redactL_idempotent (s : List Char) : redactL (redactL s) = redactL s := by
  show phoneSub (emailSub (redactL s)) = redactL s
  rw [show emailSub (redactL s) = redactL s from
    emailSubAux_id (redactL s).length (redactL s) (redactL_emailClean s)]
  exact phoneSubAux_id (redactL s).length false (redactL s) (redactL_phoneClean s)

theorem cleanF_splits (m : List Char → Option Nat) (hnil : m [] = none)
    (t : List Char) (h : CleanFWith m t) :
    ∀ u v, t = u ++ v → m v = none := by
  intro u v huv
  induction u generalizing t with
  | nil =>
    simp only [List.nil_append] at huv
    subst huv
    cases t with
    | nil => exact hnil
    | cons c t' => exact ((CleanFWith_cons m c t').mp h).1
  | cons c u' ih =>
    cases t with
    | nil => simp at huv
    | cons d t' =>
      rw [List.cons_append] at huv
      injection huv with h1 h2
      exact ih t' ((CleanFWith_cons m d t').mp h).2 h2

/-- C5: `redact` on the spec's example replaces the email match and the
phone match with their respective sentinel tokens, and `redact` is a fixed
point under a second application on every text (the sentinel tokens match
neither detection pattern, and a replacement never creates a new match in
the surrounding text). -/
theorem C5_redact_sentinels_and_idempotent :
    pii_guardrail_redact "Contact a@b.com or 555-123-4567" =
      "Contact [REDACTED_EMAIL] or [REDACTED_PHONE]" ∧
    ∀ t : String,
      pii_guardrail_redact (pii_guardrail_redact t) = pii_guardrail_redact t := by
  refine ⟨by decide, ?_⟩
  intro t
  unfold pii_guardrail_redact
  congr 1
  rw [show String.toList ⟨redactL t.toList⟩ = redactL t.toList from rfl]
  exact redactL_idempotent t.toList

/-! ## Production agent: caching + guardrail (`secure_agent_executor`)

The decorator `@guardrail_pii` redacts the function's RETURN value — after
the cache lookup, on the hit path and the miss path alike — while
`update_cache` stores the raw, unredacted LLM response.  The LLM response is
an opaque input `raw_response`; the tracer (modelled separately above) does
not affect the returned string or the cache. -/

def check_cache (cache : List (String × String)) (prompt : String) : Option String :=
  match cache with
  | [] => none
  | (k, v) :: rest => if k = prompt then some v else check_cache rest prompt

def update_cache (cache : List (String × String)) (prompt response : String) :
    List (String × String) :=
  (prompt, response) :: cache

def secure_agent_executor (user_query raw_response : String)
    (cache : List (String × String)) : String × List (String × String) :=
  match check_cache cache user_query with
  | some cached => (guardrail_pii_redact cached, cache)
  | none => (guardrail_pii_redact raw_response,
      update_cache cache user_query raw_response)

/-- C10: whatever `secure_agent_executor` returns — from the cache or fresh —
contains no substring matched by the email detection pattern (the guardrail
wrapper runs on the return value of every path), while the cache itself
stores the unredacted response. -/
theorem C10_secure_agent_output_redacted (q raw : String)
    (cache : List (String × String)) :
    (∀ u v, (secure_agent_executor q raw cache).1.toList = u ++ v →
      matchEmailPR v = none) ∧
    (check_cache cache q = none →
      check_cache (secure_agent_executor q raw cache).2 q = some raw) ∧
    (∀ cached, check_cache cache q = some cached →
      (secure_agent_executor q raw cache).1 = guardrail_pii_redact cached ∧
      (secure_agent_executor q raw cache).2 = cache) := by
  have key : ∀ x : String, ∀ u v, (guardrail_pii_redact x).toList = u ++ v →
      matchEmailPR v = none := by
    intro x u v hv
    exact cleanF_splits matchEmailPR (by decide) _ (emailSubPR_clean x.toList) u v hv
  refine ⟨?_, ?_, ?_⟩
  · intro u v hv
    cases hc : check_cache cache q with
    | some cached =>
      have hfst : (secure_agent_executor q raw cache).1 = guardrail_pii_redact cached := by
        simp [secure_agent_executor, hc]
      rw [hfst] at hv
      exact key cached u v hv
    | none =>
      have hfst : (secure_agent_executor q raw cache).1 = guardrail_pii_redact raw := by
        simp [secure_agent_executor, hc]
      rw [hfst] at hv
      exact key raw u v hv
  · intro h
    simp [secure_agent_executor, h, update_cache, check_cache]
  · intro cached h
    constructor <;> simp [secure_agent_executor, h]

theorem C10_secure_agent_output_redacted_witness :
    matchEmailPR (secure_agent_executor "q" "mail a@b.org now" []).1.toList = none ∧
    check_cache (secure_agent_executor "q" "mail a@b.org now" []).2 "q"
      = some "mail a@b.org now" ∧
    (secure_agent_executor "q2" "r" [("q2", "c@d.ee")]).1
      = guardrail_pii_redact "c@d.ee" := by
  refine ⟨?_, ?_, ?_⟩
  · exact (C10_secure_agent_output_redacted "q" "mail a@b.org now" []).1 []
      (secure_agent_executor "q" "mail a@b.org now" []).1.toList rfl
  · exact (C10_secure_agent_output_redacted "q" "mail a@b.org now" []).2.1 rfl
  · exact ((C10_secure_agent_output_redacted "q2" "r" [("q2", "c@d.ee")]).2.2
      "c@d.ee" (by decide)).1

end AgenticPatterns
